import Mathlib

/-!
Verification model of the `npy` Go library (datumbrain/npy): a codec for
NumPy's `.npy` single-array format and `.npz` container format, plus a CSV
projection.  Byte streams are `List Nat` (byte values), header text is
`List Char`.  Go's generic element type `T` is modelled by an explicit
element codec (`ElemCodec`): `enc` is the little-endian byte image that
`binary.Write` produces for one element, `dec` the inverse read.
Go `int` arithmetic that can overflow (the shape product) is modelled with
explicit wrapping to 64 bits (`wrap64`).
-/

set_option maxHeartbeats 1000000

namespace NpyGo

/-! ### Characters and digits (strconv.Itoa / strconv.Atoi) -/

/-- Decimal digit test, as Go's `'0' <= c && c <= '9'`. -/
def isDigitB (c : Char) : Bool := 48 ≤ c.toNat && c.toNat ≤ 57

/-- The character class matched by `\s` in Go's regexp package:
`[\t\n\f\r ]`. -/
def regexSpaceB (c : Char) : Bool :=
  c = ' ' || c = '\t' || c = '\n' || c = '\x0c' || c = '\r'

/-- The ASCII characters `strings.TrimSpace` removes (`unicode.IsSpace`,
restricted to ASCII: space, tab, newline, vertical tab, form feed,
carriage return). -/
def goIsSpaceB (c : Char) : Bool := regexSpaceB c || c = '\x0b'

/-- The character class `[\d,\s]` used by the shape regexp. -/
def isShapeCharB (c : Char) : Bool := isDigitB c || regexSpaceB c || c = ','

/-- The decimal digit character for `d < 10`. -/
def digitChar (d : Nat) : Char := Char.ofNat (48 + d)

/-- Digit extraction with explicit fuel (structural recursion, so that the
kernel can evaluate it); the fuel never runs out when it exceeds the
argument. -/
def natDigitsAux : Nat → Nat → List Char
  | 0, _ => []
  | fuel + 1, n =>
    if n < 10 then [digitChar n]
    else natDigitsAux fuel (n / 10) ++ [digitChar (n % 10)]

/-- Decimal digits of a natural number, most significant first
(the digit string `strconv.Itoa` produces for non-negative input). -/
def natDigits (n : Nat) : List Char := natDigitsAux (n + 1) n

theorem natDigitsAux_fuel : ∀ f1 n, n < f1 → ∀ f2, n < f2 →
    natDigitsAux f1 n = natDigitsAux f2 n := by
  intro f1
  induction f1 with
  | zero => intro n h; omega
  | succ f ih =>
    intro n h f2 h2
    cases f2 with
    | zero => omega
    | succ g =>
      rw [natDigitsAux, natDigitsAux]
      by_cases h10 : n < 10
      · rw [if_pos h10, if_pos h10]
      · rw [if_neg h10, if_neg h10]
        have hn : 0 < n := by omega
        have hdiv := Nat.div_lt_self hn (show 1 < 10 by omega)
        rw [ih (n / 10) (by omega) g (by omega)]

/-- The defining recurrence of `natDigits`. -/
theorem natDigits_eq (n : Nat) :
    natDigits n = if n < 10 then [digitChar n]
      else natDigits (n / 10) ++ [digitChar (n % 10)] := by
  rw [natDigits, natDigitsAux]
  by_cases h10 : n < 10
  · rw [if_pos h10, if_pos h10]
  · rw [if_neg h10, if_neg h10]
    have hn : 0 < n := by omega
    have hdiv := Nat.div_lt_self hn (show 1 < 10 by omega)
    rw [natDigits]
    congr 1
    exact natDigitsAux_fuel n (n / 10) (by omega) (n / 10 + 1) (by omega)

/-- Model of `strconv.Itoa` (decimal, with a leading minus sign for
negative values). -/
def goItoa (d : Int) : List Char :=
  if d < 0 then '-' :: natDigits (-d).toNat else natDigits d.toNat

/-- Accumulating decimal parser: fails on any non-digit character. -/
def digitsValAux : List Char → Nat → Option Nat
  | [], acc => some acc
  | c :: r, acc =>
      if isDigitB c then digitsValAux r (acc * 10 + (c.toNat - 48)) else none

/-- Value of a non-empty all-digit string; `none` if empty or any character
is not a decimal digit. -/
def digitsVal : List Char → Option Nat
  | [] => none
  | c :: r => digitsValAux (c :: r) 0

/-- Model of `strconv.Atoi`: optional sign, decimal digits, signed 64-bit
range check (out-of-range input is an error, as Go reports `ErrRange`). -/
def goAtoi (s : List Char) : Option Int :=
  match s with
  | [] => none
  | c :: rest =>
    if c = '-' then
      match digitsVal rest with
      | none => none
      | some n => if (n : Int) ≤ 2 ^ 63 then some (-(n : Int)) else none
    else if c = '+' then
      match digitsVal rest with
      | none => none
      | some n => if (n : Int) ≤ 2 ^ 63 - 1 then some (n : Int) else none
    else
      match digitsVal (c :: rest) with
      | none => none
      | some n => if (n : Int) ≤ 2 ^ 63 - 1 then some (n : Int) else none

theorem digitChar_toNat {d : Nat} (h : d < 10) : (digitChar d).toNat = 48 + d := by
  interval_cases d <;> decide

theorem isDigitB_digitChar {d : Nat} (h : d < 10) : isDigitB (digitChar d) = true := by
  interval_cases d <;> decide

theorem natDigits_ne_nil (n : Nat) : natDigits n ≠ [] := by
  rw [natDigits_eq]
  split <;> simp

theorem mem_natDigits_isDigit (n : Nat) :
    ∀ c ∈ natDigits n, isDigitB c = true := by
  induction n using Nat.strong_induction_on with
  | _ n ih =>
    rw [natDigits_eq]
    split
    next h =>
      intro c hc
      rw [List.mem_singleton] at hc
      subst hc
      exact isDigitB_digitChar h
    next h =>
      intro c hc
      rcases List.mem_append.mp hc with h1 | h1
      · exact ih (n / 10) (Nat.div_lt_self (by omega) (by omega)) c h1
      · rw [List.mem_singleton] at h1
        subst h1
        exact isDigitB_digitChar (Nat.mod_lt _ (by omega))

theorem digitsValAux_append (xs ys : List Char) (acc : Nat) :
    digitsValAux (xs ++ ys) acc =
      (digitsValAux xs acc).bind (digitsValAux ys) := by
  induction xs generalizing acc with
  | nil => simp [digitsValAux]
  | cons c r ih =>
    simp only [List.cons_append, digitsValAux]
    split
    · exact ih _
    · simp

theorem digitsValAux_natDigits (n : Nat) :
    ∀ acc, digitsValAux (natDigits n) acc =
      some (acc * 10 ^ (natDigits n).length + n) := by
  induction n using Nat.strong_induction_on with
  | _ n ih =>
    intro acc
    rw [natDigits_eq]
    split
    next h =>
      simp only [digitsValAux, isDigitB_digitChar h, if_true, digitChar_toNat h,
        List.length_singleton, pow_one]
      congr 1
      omega
    next h =>
      rw [digitsValAux_append]
      rw [ih (n / 10) (Nat.div_lt_self (by omega) (by omega)) acc]
      simp only [Option.bind_some, digitsValAux,
        isDigitB_digitChar (Nat.mod_lt n (show 0 < 10 by omega)),
        if_true, digitChar_toNat (Nat.mod_lt n (show 0 < 10 by omega))]
      have hlen : (natDigits (n / 10) ++ [digitChar (n % 10)]).length =
          (natDigits (n / 10)).length + 1 := by simp
      rw [hlen]
      simp only [Option.some_bind]
      congr 1
      have h48 : 48 + n % 10 - 48 = n % 10 := by omega
      rw [h48, pow_succ]
      have hdm := Nat.div_add_mod n 10
      have hr : (acc * 10 ^ (natDigits (n / 10)).length + n / 10) * 10 + n % 10 =
          acc * (10 ^ (natDigits (n / 10)).length * 10) + (n / 10 * 10 + n % 10) := by
        ring
      rw [hr]
      omega

theorem digitsVal_natDigits (n : Nat) : digitsVal (natDigits n) = some n := by
  have hne := natDigits_ne_nil n
  rcases hd : natDigits n with _ | ⟨c, r⟩
  · exact absurd hd hne
  · have := digitsValAux_natDigits n 0
    rw [hd] at this
    simpa [digitsVal] using this

theorem isDigitB_ne_signs {c : Char} (h : isDigitB c = true) :
    c ≠ '-' ∧ c ≠ '+' := by
  constructor <;> rintro rfl <;> simp [isDigitB] at h

theorem goAtoi_natDigits {n : Nat} (h : (n : Int) ≤ 2 ^ 63 - 1) :
    goAtoi (natDigits n) = some n := by
  have hne := natDigits_ne_nil n
  rcases hd : natDigits n with _ | ⟨c, r⟩
  · exact absurd hd hne
  · have hdig : isDigitB c = true := by
      apply mem_natDigits_isDigit n
      rw [hd]; exact List.mem_cons_self _ _
    obtain ⟨h1, h2⟩ := isDigitB_ne_signs hdig
    have hv : digitsVal (c :: r) = some n := by
      rw [← hd]; exact digitsVal_natDigits n
    simp only [goAtoi, if_neg h1, if_neg h2, hv, h, if_true]
    rfl

theorem goAtoi_goItoa {d : Int} (h0 : 0 ≤ d) (h1 : d < 2 ^ 63) :
    goAtoi (goItoa d) = some d := by
  rw [goItoa, if_neg (by omega)]
  have hle : ((d.toNat : Int)) ≤ 2 ^ 63 - 1 := by omega
  rw [goAtoi_natDigits hle]
  simp [Int.toNat_of_nonneg h0]

theorem mem_goItoa_isDigit {d : Int} (h0 : 0 ≤ d) :
    ∀ c ∈ goItoa d, isDigitB c = true := by
  rw [goItoa, if_neg (by omega)]
  exact mem_natDigits_isDigit _

/-! ### Go 64-bit integer arithmetic -/

/-- Wrap an integer to the signed 64-bit range, as Go `int` multiplication
overflow does. -/
def wrap64 (x : Int) : Int := (x + 2 ^ 63) % 2 ^ 64 - 2 ^ 63

/-- The element-count computation `totalElements := 1; for _, dim := range
shape { totalElements *= dim }` shared by `Write` and `readData`, with each
multiplication wrapping as a 64-bit Go `int`. -/
def goProd (shape : List Int) : Int :=
  shape.foldl (fun acc dim => wrap64 (acc * dim)) 1

/-! ### Strings: TrimSpace and Split -/

/-- Model of `strings.TrimSpace` (ASCII whitespace). -/
def trimChars (l : List Char) : List Char :=
  ((l.dropWhile goIsSpaceB).reverse.dropWhile goIsSpaceB).reverse

/-- Model of `strings.Split` with a one-character separator. -/
def goSplit (sep : Char) : List Char → List (List Char)
  | [] => [[]]
  | c :: rest =>
    if c = sep then [] :: goSplit sep rest
    else
      match goSplit sep rest with
      | [] => [[c]]
      | h :: t => (c :: h) :: t

/-! ### The header text and its parser

The Go code extracts header fields with `regexp`.  Each pattern used is
deterministic (every quantified class excludes the character that must
follow it), so the leftmost-match search is modelled by a scanner that
tries to match at each start position from the left. -/

/-- Try a match at each start position from the left; the semantics of
Go regexp's leftmost match for the anchored matchers below. -/
def scanFor (m : List Char → Option β) : List Char → Option β
  | [] => none
  | c :: rest =>
    match m (c :: rest) with
    | some r => some r
    | none => scanFor m rest

/-- Strip an expected literal from the front. -/
def stripLit (lit s : List Char) : Option (List Char) :=
  if lit.isPrefixOf s then some (s.drop lit.length) else none

/-- The literal `'shape':` of the shape regexp. -/
def shapeLit : List Char := '\'' :: "shape".toList ++ ['\'', ':']

/-- The literal `'descr':` of the descr regexp. -/
def descrLit : List Char := '\'' :: "descr".toList ++ ['\'', ':']

/-- The literal `'fortran_order':` of the fortran-order regexp. -/
def fortranLit : List Char := '\'' :: "fortran_order".toList ++ ['\'', ':']

/-- Anchored match of `'shape':\s*\(([\d,\s]*)\)`: returns the capture. -/
def matchShapeAt (s : List Char) : Option (List Char) :=
  match stripLit shapeLit s with
  | none => none
  | some s1 =>
    match s1.dropWhile regexSpaceB with
    | '(' :: s3 =>
      match s3.dropWhile isShapeCharB with
      | ')' :: _ => some (s3.takeWhile isShapeCharB)
      | _ => none
    | _ => none

/-- Anchored match of `'descr':\s*'([^']*)'`: returns the capture. -/
def matchDescrAt (s : List Char) : Option (List Char) :=
  match stripLit descrLit s with
  | none => none
  | some s1 =>
    match s1.dropWhile regexSpaceB with
    | '\'' :: s3 =>
      match s3.dropWhile (fun c => !(c = '\'')) with
      | '\'' :: _ => some (s3.takeWhile (fun c => !(c = '\'')))
      | _ => none
    | _ => none

/-- Anchored match of `'fortran_order':\s*(True|False)`: returns the
captured boolean text as a Bool. -/
def matchFortranAt (s : List Char) : Option Bool :=
  match stripLit fortranLit s with
  | none => none
  | some s1 =>
    let s2 := s1.dropWhile regexSpaceB
    if ("True".toList).isPrefixOf s2 then some true
    else if ("False".toList).isPrefixOf s2 then some false
    else none

/-- The regexp `{.*}` (greedy, `.` not matching a newline): from the first
`{` that is followed by a `}` on the same line, up to the last such `}`. -/
def findDict : List Char → Option (List Char)
  | [] => none
  | c :: rest =>
    if c = '\x7b' then
      let seg := rest.takeWhile (fun x => !(x = '\n'))
      if seg.contains '\x7d' then
        some ('\x7b' :: seg.rdropWhile (fun x => !(x = '\x7d')))
      else findDict rest
    else findDict rest

/-- Parsed header metadata (the Go `header` struct). -/
structure NpHeader where
  shape : List Int
  dtype : String
  fortran : Bool
  deriving Repr, DecidableEq

/-- Map the type characters of a descr token (after the endianness marker)
to the dtype name, as `parseHeader`'s switch does. -/
def tokenKind (tc : List Char) : Option String :=
  if tc = "b1".toList then some "bool"
  else if tc = "i1".toList then some "int8"
  else if tc = "i2".toList then some "int16"
  else if tc = "i4".toList then some "int32"
  else if tc = "i8".toList then some "int64"
  else if tc = "u1".toList then some "uint8"
  else if tc = "u2".toList then some "uint16"
  else if tc = "u4".toList then some "uint32"
  else if tc = "u8".toList then some "uint64"
  else if tc = "f4".toList then some "float32"
  else if tc = "f8".toList then some "float64"
  else none

/-- Parse the comma-separated dimension list: trim each part, skip empty
parts, `strconv.Atoi` the rest. -/
def parseDims : List (List Char) → Option (List Int)
  | [] => some []
  | p :: ps =>
    let t := trimChars p
    if t = [] then parseDims ps
    else
      match goAtoi t with
      | none => none
      | some d =>
        match parseDims ps with
        | none => none
        | some rest => some (d :: rest)

/-- Model of `parseHeader`: extract the brace-delimited dictionary, then the
shape tuple, the descr token and the fortran_order flag, in the order the
Go code does. -/
def parseHeader (s : List Char) : Option NpHeader :=
  match findDict s with
  | none => none
  | some dict =>
    match scanFor matchShapeAt dict with
    | none => none
    | some cap =>
      match parseDims (goSplit ',' cap) with
      | none => none
      | some shape =>
        match scanFor matchDescrAt dict with
        | none => none
        | some dtypeStr =>
          if 2 ≤ dtypeStr.length then
            match tokenKind (dtypeStr.drop 1) with
            | none => none
            | some dtype =>
              match scanFor matchFortranAt dict with
              | none => none
              | some fortran => some ⟨shape, dtype, fortran⟩
          else none

/-! ### Header generation -/

/-- The dtype names the library defines (`Bool` .. `Float64`). -/
def supportedDTypes : List String :=
  ["bool", "int8", "int16", "int32", "int64",
   "uint8", "uint16", "uint32", "uint64", "float32", "float64"]

/-- The descr-token switch of `generateHeader`; note the default branch
silently substitutes the float64 token `<f8`. -/
def dtypeToken (dt : String) : List Char :=
  if dt = "bool" then "|b1".toList
  else if dt = "int8" then "|i1".toList
  else if dt = "int16" then "<i2".toList
  else if dt = "int32" then "<i4".toList
  else if dt = "int64" then "<i8".toList
  else if dt = "uint8" then "|u1".toList
  else if dt = "uint16" then "<u2".toList
  else if dt = "uint32" then "<u4".toList
  else if dt = "uint64" then "<u8".toList
  else if dt = "float32" then "<f4".toList
  else if dt = "float64" then "<f8".toList
  else "<f8".toList

/-- The interior of the shape tuple: comma-separated dimensions with the
trailing comma `generateHeader` appends for 0- and 1-dimensional shapes. -/
def shapeInner (sh : List Int) : List Char :=
  List.intercalate (", ".toList) (sh.map goItoa) ++
    (if sh.length = 0 ∨ sh.length = 1 then [','] else [])

/-- A NumPy array as the Go generic struct `Array[T]`.  `none` for `data`
or `shape` models a nil Go slice. -/
structure GoArray (α : Type) where
  data : Option (List α)
  shape : Option (List Int)
  dtype : String
  fortran : Bool
  deriving Repr, DecidableEq

/-- Model of `generateHeader`: the dictionary-literal header text. -/
def generateHeader (arr : GoArray α) : List Char :=
  '\x7b' :: descrLit ++ (' ' :: '\'' :: dtypeToken arr.dtype) ++ ('\'' :: ", ".toList) ++
    fortranLit ++ (' ' :: (if arr.fortran then "True".toList else "False".toList)) ++
    (", ".toList) ++ shapeLit ++ (' ' :: '(' :: shapeInner (arr.shape.getD []) ++ [')']) ++
    (", ".toList) ++ ['\x7d']

/-- The padding length `Write` computes: `16 - ((10+len) % 16)`, bumped by
16 if below 1 (a branch that never fires, kept from the source). -/
def padLen (n : Nat) : Nat :=
  if 16 - (10 + n) % 16 < 1 then 16 - (10 + n) % 16 + 16
  else 16 - (10 + n) % 16

/-- The header text after `Write` pads it: trailing spaces and one newline so
that 10 + length is a multiple of 16 (padding at least one byte). -/
def paddedHeader (arr : GoArray α) : List Char :=
  let h := generateHeader arr
  h ++ List.replicate (padLen h.length - 1) ' ' ++ ['\n']

/-! ### The array codec (Read / Write) -/

/-- The per-element byte codec standing in for the Go generic parameter `T`
together with `binary.Read`/`binary.Write`'s fixed-width little-endian
encoding for it. -/
structure ElemCodec (α : Type) where
  width : Nat
  enc : α → List Nat
  dec : List Nat → α

/-- A codec is well formed when each element encodes to exactly `width`
bytes and decoding inverts encoding. -/
def ElemCodec.WF (ec : ElemCodec α) : Prop :=
  (∀ x, (ec.enc x).length = ec.width) ∧ ∀ x, ec.dec (ec.enc x) = x

/-- The bytes of the magic string `\x93NUMPY`. -/
def magicBytes : List Nat := [0x93, 0x4e, 0x55, 0x4d, 0x50, 0x59]

/-- Two little-endian bytes of a 16-bit value. -/
def le16 (n : Nat) : List Nat := [n % 256, n / 256 % 256]

/-- Four little-endian bytes of a 32-bit value. -/
def le32 (n : Nat) : List Nat :=
  [n % 256, n / 256 % 256, n / 2 ^ 16 % 256, n / 2 ^ 24 % 256]

/-- Model of `readData`'s `binary.Read` loop: read `n` elements of `width`
bytes each; `none` when the stream is too short. -/
def readElems (ec : ElemCodec α) : Nat → List Nat → Option (List α)
  | 0, _ => some []
  | n + 1, s =>
    if s.length < ec.width then none
    else
      match readElems ec n (s.drop ec.width) with
      | none => none
      | some rest => some (ec.dec (s.take ec.width) :: rest)

/-- Model of `readData`: element count from the wrapping shape product (a
negative count panics Go's `make`, modelled as failure). -/
def readData (ec : ElemCodec α) (hdr : NpHeader) (s : List Nat) : Option (List α) :=
  if goProd hdr.shape < 0 then none
  else readElems ec (goProd hdr.shape).toNat s

/-- Version byte, header length and header text: the envelope steps shared
verbatim by `Read` (after its magic check) and the first pass of
`ReadNPZFile` (which skips the magic check).  Returns the parsed header and
the remaining stream.  A major version of 2 reads a 4-byte length and
narrows it with `uint16(...)`. -/
def readVersionHeader (s : List Nat) : Option (NpHeader × List Nat) :=
  match s with
  | major :: _minor :: rest =>
    match
      (if major = 1 then
        match rest with
        | b0 :: b1 :: rest2 => some (b0 + 256 * b1, rest2)
        | _ => none
      else if major = 2 then
        match rest with
        | b0 :: b1 :: b2 :: b3 :: rest2 =>
          some ((b0 + 256 * b1 + 2 ^ 16 * b2 + 2 ^ 24 * b3) % 2 ^ 16, rest2)
        | _ => none
      else none : Option (Nat × List Nat)) with
    | none => none
    | some (headerLen, rest2) =>
      if rest2.length < headerLen then none
      else
        match parseHeader ((rest2.take headerLen).map Char.ofNat) with
        | none => none
        | some hdr => some (hdr, rest2.drop headerLen)
  | _ => none

/-- Model of `Read`: magic check, envelope, header, data. -/
def Read (ec : ElemCodec α) (s : List Nat) : Option (GoArray α) :=
  if s.length < 6 then none
  else if ¬(s.take 6 = magicBytes) then none
  else
    match readVersionHeader (s.drop 6) with
    | none => none
    | some (hdr, rest) =>
      match readData ec hdr rest with
      | none => none
      | some data => some ⟨some data, some hdr.shape, hdr.dtype, hdr.fortran⟩

/-- Model of `Write`: validation, then magic, version 1.0, the 16-bit
header length (note the `uint16(len(headerStr))` narrowing), the padded
header text, and the raw little-endian element buffer. -/
def Write (ec : ElemCodec α) (arr : GoArray α) : Option (List Nat) :=
  match arr.data with
  | none => none
  | some d =>
    match arr.shape with
    | none => none
    | some sh =>
      if arr.dtype = "" then none
      else if ¬((d.length : Int) = goProd sh) then none
      else
        some (magicBytes ++ 1 :: 0 :: le16 ((paddedHeader arr).length % 2 ^ 16) ++
          (paddedHeader arr).map Char.toNat ++ (d.map ec.enc).flatten)

/-- The first pass of `ReadNPZFile` over one member: reads and DISCARDS the
6 magic bytes without comparing them, then the envelope through the parsed
header (the Go code at lines 154-203 duplicates `Read`'s envelope logic but
omits the `bytes.Equal` magic check). -/
def npzFirstPass (s : List Nat) : Option NpHeader :=
  if s.length < 6 then none
  else
    match readVersionHeader (s.drop 6) with
    | none => none
    | some (hdr, _) => some hdr

/-! ### The CSV projection (ToCsv) -/

/-- The flat index computed inside `ToCsv`'s 2-D loop. -/
def csvIndex (fortran : Bool) (rows cols : Int) (r c : Nat) : Int :=
  if fortran then (c : Int) * rows + (r : Int) else (r : Int) * cols + (c : Int)

/-- Model of `ToCsv` with the file and `csv.Writer` mechanics abstracted to
the sequence of records written.  An out-of-range index (a Go slice-index
panic) and the explicit dimensionality error are both `Except.error`,
distinguished by message. -/
def ToCsv (fmt : α → String) (arr : GoArray α) : Except String (List (List String)) :=
  let data := arr.data.getD []
  let shape := arr.shape.getD []
  let dimensions := shape.length
  if dimensions = 0 ∨ (dimensions = 1 ∧ shape.headD 0 = 0) then .ok []
  else if dimensions = 1 then .ok [data.map fmt]
  else if dimensions = 2 then
    let rows := shape.headD 0
    let cols := (shape.drop 1).headD 0
    (List.range rows.toNat).mapM fun r =>
      (List.range cols.toNat).mapM fun c =>
        match data[(csvIndex arr.fortran rows cols r c).toNat]? with
        | some v => .ok (fmt v)
        | none => .error "index out of range"
  else .error "arrays with more than 2 dimensions are not supported for Csv export"

/-! ### The NPZ container's type-erased entries (Get) -/

/-- The closed set of Go element types a container entry can hold. -/
inductive ElemKind
  | kbool | ki8 | ki16 | ki32 | ki64 | ku8 | ku16 | ku32 | ku64 | kf32 | kf64
  deriving Repr, DecidableEq

/-- The Lean carrier for each Go element type (the values play no role in
retrieval; the `ElemKind` tag is what the Go type assertion discriminates). -/
def ValType : ElemKind → Type
  | .kbool => Bool
  | _ => Int

/-- A type-erased `*Array[T]` as stored in the `map[string]interface{}`. -/
def AnyArray := Σ k : ElemKind, GoArray (ValType k)

/-- The container: names to type-erased arrays. -/
def NPZFile := List (String × AnyArray)

/-- Model of `Get[T]`: map lookup followed by the type assertion
`val.(*Array[T])` — the assertion succeeds exactly when the stored concrete
element type is `k`; on a wrong type it yields (nil, false), never an
error. -/
def Get (k : ElemKind) (npz : NPZFile) (name : String) : Option (GoArray (ValType k)) :=
  match List.lookup name npz with
  | none => none
  | some a => if h : a.1 = k then some (h ▸ a.2) else none

/-! ### List helper lemmas -/

theorem dropWhile_all_false {p : α → Bool} {l : List α}
    (h : ∀ c ∈ l, p c = false) : l.dropWhile p = l := by
  cases l with
  | nil => rfl
  | cons c r =>
    rw [List.dropWhile_cons, h c (List.mem_cons_self c r)]
    simp

theorem takeWhile_append_cons {p : α → Bool} {xs : List α} {y : α} {ys : List α}
    (hx : ∀ x ∈ xs, p x = true) (hy : p y = false) :
    (xs ++ y :: ys).takeWhile p = xs := by
  induction xs with
  | nil => simp [List.takeWhile_cons, hy]
  | cons c r ih =>
    have hc := hx c (List.mem_cons_self c r)
    rw [List.cons_append, List.takeWhile_cons, hc]
    simp only [if_true]
    rw [ih fun x hx' => hx x (List.mem_cons_of_mem c hx')]

theorem dropWhile_append_cons {p : α → Bool} {xs : List α} {y : α} {ys : List α}
    (hx : ∀ x ∈ xs, p x = true) (hy : p y = false) :
    (xs ++ y :: ys).dropWhile p = y :: ys := by
  induction xs with
  | nil => simp [List.dropWhile_cons, hy]
  | cons c r ih =>
    have hc := hx c (List.mem_cons_self c r)
    rw [List.cons_append, List.dropWhile_cons, hc]
    simp only [if_true]
    exact ih fun x hx' => hx x (List.mem_cons_of_mem c hx')

theorem rdropWhile_append_last {p : α → Bool} {xs : List α} {y : α} {ys : List α}
    (hy : p y = false) (hys : ∀ x ∈ ys, p x = true) :
    ((xs ++ [y]) ++ ys).rdropWhile p = xs ++ [y] := by
  rw [List.rdropWhile, List.reverse_append, List.reverse_append,
    List.reverse_singleton, List.singleton_append]
  rw [dropWhile_append_cons (fun x hx => hys x (List.mem_reverse.mp hx)) hy]
  simp

/-! ### Scanner lemmas -/

theorem scanFor_cons (m : List Char → Option β) (c : Char) (rest : List Char) :
    scanFor m (c :: rest) =
      match m (c :: rest) with
      | some r => some r
      | none => scanFor m rest := rfl

theorem scanFor_append (m : List Char → Option β) (pre t : List Char)
    (h : ∀ q, q ≠ [] → q <:+ pre → m (q ++ t) = none) :
    scanFor m (pre ++ t) = scanFor m t := by
  induction pre with
  | nil => rfl
  | cons c r ih =>
    rw [List.cons_append, scanFor_cons]
    have hhead : m ((c :: r) ++ t) = none :=
      h (c :: r) (by simp) List.suffix_rfl
    rw [List.cons_append] at hhead
    rw [hhead]
    exact ih fun q hq hq' => h q hq (hq'.trans (List.suffix_cons c r))

theorem scanFor_head_some {m : List Char → Option β} {s : List Char} {r : β}
    (hs : s ≠ []) (h : m s = some r) : scanFor m s = some r := by
  cases s with
  | nil => exact absurd rfl hs
  | cons c rest => rw [scanFor_cons, h]

theorem scanFor_eq_some {m : List Char → Option β} {s : List Char} {r : β}
    (h : scanFor m s = some r) : ∃ t, t <:+ s ∧ m t = some r := by
  induction s with
  | nil => simp [scanFor] at h
  | cons c rest ih =>
    rw [scanFor_cons] at h
    rcases hm : m (c :: rest) with _ | v
    · rw [hm] at h
      obtain ⟨t, ht, hmt⟩ := ih h
      exact ⟨t, ht.trans (List.suffix_cons c rest), hmt⟩
    · rw [hm] at h
      cases h
      exact ⟨c :: rest, List.suffix_rfl, hm⟩

theorem take_of_isPrefix {lit t : List Char} (h : lit <+: t) {k : Nat}
    (hk : k ≤ lit.length) : t.take k = lit.take k := by
  obtain ⟨r, rfl⟩ := h
  rw [List.take_append_eq_append_take]
  have : k - lit.length = 0 := by omega
  rw [this]
  simp

theorem prefix_append_transfer {lit t : List Char} (q : List Char) (hlt : lit <+: t) :
    (lit <+: (q ++ t)) ↔ (lit <+: (q ++ lit)) := by
  rw [List.prefix_iff_eq_take, List.prefix_iff_eq_take]
  rw [List.take_append_eq_append_take, List.take_append_eq_append_take]
  rw [take_of_isPrefix hlt (by omega)]

/-- No occurrence of `lit` begins strictly inside `pre` and continues into a
string starting with `lit`: the decidable side condition for the scanners. -/
def NoInnerOccur (lit pre : List Char) : Prop :=
  ∀ q ∈ pre.tails, q ≠ [] → ¬ (lit <+: (q ++ lit))

instance (lit pre : List Char) : Decidable (NoInnerOccur lit pre) := by
  unfold NoInnerOccur
  infer_instance

theorem scanFor_append_of_noInner {m : List Char → Option β} {lit : List Char}
    (hm : ∀ s, ¬ (lit <+: s) → m s = none) (pre t : List Char) (hlt : lit <+: t)
    (hno : NoInnerOccur lit pre) :
    scanFor m (pre ++ t) = scanFor m t := by
  apply scanFor_append
  intro q hq hq'
  apply hm
  intro hcon
  exact hno q ((List.mem_tails q pre).mpr hq') hq
    ((prefix_append_transfer q hlt).mp hcon)

theorem stripLit_of_append (lit rest : List Char) :
    stripLit lit (lit ++ rest) = some rest := by
  rw [stripLit, if_pos]
  · rw [List.drop_left]
  · exact List.isPrefixOf_iff_prefix.mpr (List.prefix_append lit rest)

theorem stripLit_eq_none {lit s : List Char} (h : ¬ (lit <+: s)) :
    stripLit lit s = none := by
  rw [stripLit, if_neg]
  intro hc
  exact h (List.isPrefixOf_iff_prefix.mp hc)

theorem matchShapeAt_eq_none {s : List Char} (h : ¬ (shapeLit <+: s)) :
    matchShapeAt s = none := by
  rw [matchShapeAt, stripLit_eq_none h]

theorem matchDescrAt_eq_none {s : List Char} (h : ¬ (descrLit <+: s)) :
    matchDescrAt s = none := by
  rw [matchDescrAt, stripLit_eq_none h]

theorem matchFortranAt_eq_none {s : List Char} (h : ¬ (fortranLit <+: s)) :
    matchFortranAt s = none := by
  rw [matchFortranAt, stripLit_eq_none h]

/-! ### goSplit lemmas -/

theorem goSplit_ne_nil (sep : Char) (l : List Char) : goSplit sep l ≠ [] := by
  cases l with
  | nil => simp [goSplit]
  | cons c rest =>
    rw [goSplit]
    split
    · simp
    · split <;> simp

theorem goSplit_append_eq {sep : Char} {p l : List Char}
    (hp : ∀ c ∈ p, ¬ c = sep) {h : List Char} {t : List (List Char)}
    (hl : goSplit sep l = h :: t) :
    goSplit sep (p ++ l) = (p ++ h) :: t := by
  induction p with
  | nil => simpa using hl
  | cons c r ih =>
    have hc : ¬ c = sep := hp c (List.mem_cons_self c r)
    rw [List.cons_append, goSplit, if_neg hc]
    rw [ih fun x hx => hp x (List.mem_cons_of_mem c hx)]
    simp

theorem goSplit_cons_sep (sep : Char) (l : List Char) :
    goSplit sep (sep :: l) = [] :: goSplit sep l := by
  rw [goSplit, if_pos rfl]

theorem goSplit_cons_ne {sep c : Char} (hc : ¬ c = sep) {l : List Char}
    {h : List Char} {t : List (List Char)} (hl : goSplit sep l = h :: t) :
    goSplit sep (c :: l) = (c :: h) :: t := by
  rw [goSplit, if_neg hc, hl]

/-! ### trimChars lemmas -/

theorem trimChars_no_space {l : List Char}
    (h : ∀ c ∈ l, goIsSpaceB c = false) : trimChars l = l := by
  rw [trimChars, dropWhile_all_false h, dropWhile_all_false, List.reverse_reverse]
  intro c hc
  exact h c (List.mem_reverse.mp hc)

theorem trimChars_cons_space (l : List Char) : trimChars (' ' :: l) = trimChars l := by
  rw [trimChars, trimChars, List.dropWhile_cons]
  norm_num [goIsSpaceB, regexSpaceB]

/-! ### Character-class lemmas -/

theorem isDigitB_not_space {c : Char} (h : isDigitB c = true) :
    goIsSpaceB c = false := by
  cases hc : goIsSpaceB c with
  | false => rfl
  | true =>
    exfalso
    simp only [goIsSpaceB, regexSpaceB, Bool.or_eq_true, decide_eq_true_eq] at hc
    rcases hc with ((((hc | hc) | hc) | hc) | hc) | hc <;> subst hc <;>
      simp [isDigitB] at h

theorem isDigitB_shapeChar {c : Char} (h : isDigitB c = true) :
    isShapeCharB c = true := by
  simp [isShapeCharB, h]

theorem isDigitB_ne_char {c x : Char} (h : isDigitB c = true)
    (hx : isDigitB x = false) : ¬ c = x := by
  intro hcx
  subst hcx
  rw [h] at hx
  cases hx

/-! ### Membership in the generated shape text -/

theorem intercalate_cons₂ (sep p q : List Char) (rest : List (List Char)) :
    List.intercalate sep (p :: q :: rest) =
      p ++ sep ++ List.intercalate sep (q :: rest) := by
  simp [List.intercalate]

theorem mem_intercalate {sep : List Char} {l : List (List Char)} {c : Char}
    (h : c ∈ List.intercalate sep l) : c ∈ sep ∨ ∃ p ∈ l, c ∈ p := by
  induction l with
  | nil => simp [List.intercalate] at h
  | cons p rest ih =>
    cases rest with
    | nil =>
      right
      refine ⟨p, by simp, ?_⟩
      simpa [List.intercalate] using h
    | cons q rest' =>
      rw [intercalate_cons₂] at h
      rcases List.mem_append.mp h with h1 | h1
      · rcases List.mem_append.mp h1 with h2 | h2
        · exact Or.inr ⟨p, by simp, h2⟩
        · exact Or.inl h2
      · rcases ih h1 with h2 | ⟨p', hp', hc'⟩
        · exact Or.inl h2
        · exact Or.inr ⟨p', List.mem_cons_of_mem p hp', hc'⟩

/-- Every character of the generated shape interior is a digit, a comma or
a space. -/
theorem mem_shapeInner {sh : List Int} (hsh : ∀ d ∈ sh, 0 ≤ d) {c : Char}
    (h : c ∈ shapeInner sh) : isDigitB c = true ∨ c = ',' ∨ c = ' ' := by
  rw [shapeInner] at h
  rcases List.mem_append.mp h with h1 | h1
  · rcases mem_intercalate h1 with h2 | ⟨p, hp, hc⟩
    · rcases List.mem_cons.mp h2 with h3 | h3
      · exact Or.inr (Or.inl h3)
      · rcases List.mem_cons.mp h3 with h4 | h4
        · exact Or.inr (Or.inr h4)
        · simp at h4
    · obtain ⟨d, hd, rfl⟩ := List.mem_map.mp hp
      exact Or.inl (mem_goItoa_isDigit (hsh d hd) c hc)
  · split at h1
    · rcases List.mem_singleton.mp h1 with rfl
      exact Or.inr (Or.inl rfl)
    · simp at h1

theorem mem_shapeInner_shapeChar {sh : List Int} (hsh : ∀ d ∈ sh, 0 ≤ d) :
    ∀ c ∈ shapeInner sh, isShapeCharB c = true := by
  intro c hc
  rcases mem_shapeInner hsh hc with h | h | h
  · exact isDigitB_shapeChar h
  · subst h; decide
  · subst h; decide

theorem mem_shapeInner_ne_nl {sh : List Int} (hsh : ∀ d ∈ sh, 0 ≤ d) :
    ∀ c ∈ shapeInner sh, ¬ c = '\n' := by
  intro c hc
  rcases mem_shapeInner hsh hc with h | h | h
  · exact isDigitB_ne_char h (by decide)
  · subst h; decide
  · subst h; decide

/-! ### parseDims on the generated shape interior -/

theorem trimChars_goItoa {d : Int} (h0 : 0 ≤ d) :
    trimChars (goItoa d) = goItoa d :=
  trimChars_no_space fun c hc => isDigitB_not_space (mem_goItoa_isDigit h0 c hc)

theorem goItoa_ne_nil {d : Int} (h0 : 0 ≤ d) : goItoa d ≠ [] := by
  rw [goItoa, if_neg (by omega)]
  exact natDigits_ne_nil _

theorem goItoa_no_comma {d : Int} (h0 : 0 ≤ d) : ∀ c ∈ goItoa d, ¬ c = ',' :=
  fun c hc => isDigitB_ne_char (mem_goItoa_isDigit h0 c hc) (by decide)

theorem parseDims_cons_digits {d : Int} (h0 : 0 ≤ d) (h1 : d < 2 ^ 63)
    {ps : List (List Char)} {rest : List Int} (hps : parseDims ps = some rest) :
    parseDims (goItoa d :: ps) = some (d :: rest) := by
  rw [parseDims]
  rw [trimChars_goItoa h0]
  rw [if_neg (goItoa_ne_nil h0), goAtoi_goItoa h0 h1, hps]

theorem parseDims_space_digits (ds : List Int)
    (h : ∀ d ∈ ds, 0 ≤ d ∧ d < 2 ^ 63) :
    parseDims ((ds.map goItoa).map (fun q => ' ' :: q)) = some ds := by
  induction ds with
  | nil => rfl
  | cons d rest ih =>
    obtain ⟨h0, h1⟩ := h d (List.mem_cons_self d rest)
    rw [List.map_cons, List.map_cons, parseDims]
    rw [trimChars_cons_space, trimChars_goItoa h0]
    rw [if_neg (goItoa_ne_nil h0), goAtoi_goItoa h0 h1]
    rw [ih fun x hx => h x (List.mem_cons_of_mem d hx)]

theorem goSplit_intercalate_cons (p : List Char) (rest : List (List Char))
    (hp : ∀ c ∈ p, ¬ c = ',') (hrest : ∀ q ∈ rest, ∀ c ∈ q, ¬ c = ',') :
    goSplit ',' (List.intercalate (", ".toList) (p :: rest)) =
      p :: rest.map (fun q => ' ' :: q) := by
  induction rest generalizing p with
  | nil =>
    have h1 : List.intercalate (", ".toList) [p] = p := by
      simp [List.intercalate]
    rw [h1]
    conv_lhs => rw [show p = p ++ [] from (List.append_nil p).symm]
    rw [goSplit_append_eq hp (show goSplit ',' [] = [] :: [] from rfl)]
    simp
  | cons q rest' ih =>
    rw [intercalate_cons₂, List.append_assoc]
    have hq : ∀ c ∈ q, ¬ c = ',' := hrest q (List.mem_cons_self q rest')
    have hstep : goSplit ','
        ((", ".toList) ++ List.intercalate (", ".toList) (q :: rest')) =
        [] :: (' ' :: q) :: rest'.map (fun x => ' ' :: x) := by
      have hX := ih q hq fun x hx => hrest x (List.mem_cons_of_mem q hx)
      rcases hq2 : goSplit ',' (List.intercalate (", ".toList) (q :: rest')) with
        _ | ⟨h', t'⟩
      · exact absurd hq2 (goSplit_ne_nil _ _)
      · rw [hq2] at hX
        cases hX
        show goSplit ',' (',' :: ' ' :: List.intercalate (", ".toList) (q :: rest')) = _
        rw [goSplit_cons_sep]
        rw [goSplit_cons_ne (by decide) hq2]
    rw [goSplit_append_eq hp hstep]
    simp

theorem parseDims_shapeInner (sh : List Int)
    (hsh : ∀ d ∈ sh, 0 ≤ d ∧ d < 2 ^ 63) :
    parseDims (goSplit ',' (shapeInner sh)) = some sh := by
  match sh with
  | [] => decide
  | [d] =>
    obtain ⟨h0, h1⟩ := hsh d (List.mem_singleton.mpr rfl)
    have h2 : shapeInner [d] = goItoa d ++ [','] := by
      simp [shapeInner, List.intercalate]
    rw [h2]
    rw [goSplit_append_eq (goItoa_no_comma h0)
      (show goSplit ',' [','] = [] :: [[]] from rfl)]
    rw [List.append_nil]
    rw [parseDims_cons_digits h0 h1 (show parseDims [[]] = some [] from rfl)]
  | d :: d' :: rest =>
    have h2 : shapeInner (d :: d' :: rest) =
        List.intercalate (", ".toList) ((d :: d' :: rest).map goItoa) := by
      simp [shapeInner]
    rw [h2, List.map_cons]
    obtain ⟨h0, h1⟩ := hsh d (List.mem_cons_self _ _)
    rw [goSplit_intercalate_cons _ _ (goItoa_no_comma h0) ?hrest]
    case hrest =>
      intro q hq c hc
      obtain ⟨x, hx, rfl⟩ := List.mem_map.mp hq
      have hx0 := (hsh x (List.mem_cons_of_mem d hx)).1
      exact goItoa_no_comma hx0 c hc
    rw [parseDims_cons_digits h0 h1
      (parseDims_space_digits (d' :: rest) fun x hx => hsh x (List.mem_cons_of_mem d hx))]

/-! ### The anchored matchers on the generated header -/

theorem dropWhile_cons_of_pos {p : α → Bool} {c : α} (hc : p c = true) (l : List α) :
    List.dropWhile p (c :: l) = l.dropWhile p := by
  simp [List.dropWhile_cons, hc]

theorem dropWhile_cons_of_neg {p : α → Bool} {c : α} (hc : p c = false) (l : List α) :
    List.dropWhile p (c :: l) = c :: l := by
  simp [List.dropWhile_cons, hc]

theorem matchShapeAt_template (inner tl : List Char)
    (hin : ∀ c ∈ inner, isShapeCharB c = true) :
    matchShapeAt (shapeLit ++ (' ' :: ('(' :: (inner ++ (')' :: tl))))) = some inner := by
  have h1 : (' ' :: ('(' :: (inner ++ (')' :: tl)))).dropWhile regexSpaceB =
      '(' :: (inner ++ (')' :: tl)) := by
    rw [dropWhile_cons_of_pos (by decide), dropWhile_cons_of_neg (by decide)]
  have h2 : (inner ++ (')' :: tl)).dropWhile isShapeCharB = ')' :: tl :=
    dropWhile_append_cons hin (by decide)
  have h3 : (inner ++ (')' :: tl)).takeWhile isShapeCharB = inner :=
    takeWhile_append_cons hin (by decide)
  simp only [matchShapeAt, stripLit_of_append, h1, h2, h3]

theorem matchDescrAt_template (tok tl : List Char)
    (htok : ∀ c ∈ tok, ¬ c = '\'') :
    matchDescrAt (descrLit ++ (' ' :: ('\'' :: (tok ++ ('\'' :: tl))))) = some tok := by
  have h1 : (' ' :: ('\'' :: (tok ++ ('\'' :: tl)))).dropWhile regexSpaceB =
      '\'' :: (tok ++ ('\'' :: tl)) := by
    rw [dropWhile_cons_of_pos (by decide), dropWhile_cons_of_neg (by decide)]
  have htok' : ∀ c ∈ tok, (!(c = '\'' : Bool)) = true := by
    intro c hc
    simpa using htok c hc
  have h2 : (tok ++ ('\'' :: tl)).dropWhile (fun c => !(c = '\'')) = '\'' :: tl :=
    dropWhile_append_cons htok' (by decide)
  have h3 : (tok ++ ('\'' :: tl)).takeWhile (fun c => !(c = '\'')) = tok :=
    takeWhile_append_cons htok' (by decide)
  simp only [matchDescrAt, stripLit_of_append, h1, h2, h3]

theorem matchFortranAt_template (f : Bool) (tl : List Char) :
    matchFortranAt (fortranLit ++
      (' ' :: ((if f then "True".toList else "False".toList) ++ tl))) = some f := by
  cases f with
  | true =>
    have h1 : List.dropWhile regexSpaceB (' ' :: 'T' :: 'r' :: 'u' :: 'e' :: tl) =
        'T' :: 'r' :: 'u' :: 'e' :: tl := by
      rw [dropWhile_cons_of_pos (by decide), dropWhile_cons_of_neg (by decide)]
    have hp : (['T', 'r', 'u', 'e'] : List Char) <+: 'T' :: 'r' :: 'u' :: 'e' :: tl :=
      ⟨tl, rfl⟩
    simp [matchFortranAt, stripLit_of_append, h1, hp]
  | false =>
    have h1 : List.dropWhile regexSpaceB (' ' :: 'F' :: 'a' :: 'l' :: 's' :: 'e' :: tl) =
        'F' :: 'a' :: 'l' :: 's' :: 'e' :: tl := by
      rw [dropWhile_cons_of_pos (by decide), dropWhile_cons_of_neg (by decide)]
    have hne : ¬ ((['T', 'r', 'u', 'e'] : List Char) <+:
        'F' :: 'a' :: 'l' :: 's' :: 'e' :: tl) := by
      simp
    have hp : (['F', 'a', 'l', 's', 'e'] : List Char) <+:
        'F' :: 'a' :: 'l' :: 's' :: 'e' :: tl := ⟨tl, rfl⟩
    simp [matchFortranAt, stripLit_of_append, h1, hne, hp]

/-! ### findDict on the generated padded header -/

theorem findDict_generated (body : List Char) (padN : Nat)
    (hnl : ∀ c ∈ body, ¬ c = '\n') :
    findDict (('\x7b' :: (body ++ ['\x7d'])) ++ (List.replicate padN ' ' ++ ['\n'])) =
      some ('\x7b' :: (body ++ ['\x7d'])) := by
  have hshape : ('\x7b' :: (body ++ ['\x7d'])) ++ (List.replicate padN ' ' ++ ['\n']) =
      '\x7b' :: (((body ++ ['\x7d']) ++ List.replicate padN ' ') ++ ['\n']) := by
    simp
  rw [hshape, findDict, if_pos rfl]
  have hseg : ((((body ++ ['\x7d']) ++ List.replicate padN ' ') ++ ['\n'])).takeWhile
      (fun x => !(x = '\n')) = (body ++ ['\x7d']) ++ List.replicate padN ' ' := by
    rw [show (((body ++ ['\x7d']) ++ List.replicate padN ' ') ++ ['\n']) =
      (((body ++ ['\x7d']) ++ List.replicate padN ' ') ++ ('\n' :: [])) from rfl]
    apply takeWhile_append_cons
    · intro x hx
      rcases List.mem_append.mp hx with h1 | h1
      · rcases List.mem_append.mp h1 with h2 | h2
        · simpa using hnl x h2
        · rcases List.mem_singleton.mp h2 with rfl
          decide
      · rcases List.eq_of_mem_replicate h1 with rfl
        decide
    · decide
  simp only [hseg]
  have hcont : ((body ++ ['\x7d']) ++ List.replicate padN ' ').contains '\x7d' = true := by
    have hm : '\x7d' ∈ (body ++ ['\x7d']) ++ List.replicate padN ' ' := by
      simp
    exact List.elem_eq_true_of_mem hm
  rw [if_pos hcont]
  have hdrop : ((body ++ ['\x7d']) ++ List.replicate padN ' ').rdropWhile
      (fun x => !(x = '\x7d')) = body ++ ['\x7d'] := by
    apply rdropWhile_append_last
    · decide
    · intro x hx
      rcases List.eq_of_mem_replicate hx with rfl
      decide
  rw [hdrop]

/-! ### The whole generated header parses back -/

/-- The text between the braces of a generated header, parameterised by the
descr token, the fortran flag and the shape interior. -/
def dictBodyOf (tok : List Char) (f : Bool) (inner : List Char) : List Char :=
  descrLit ++ (' ' :: ('\'' :: tok)) ++ ('\'' :: ", ".toList) ++ fortranLit ++
    (' ' :: (if f then "True".toList else "False".toList)) ++ ", ".toList ++
    shapeLit ++ (' ' :: ('(' :: (inner ++ [')']))) ++ [',', ' ']

/-- The prefix of the dictionary before the fortran_order field. -/
def preF (tok : List Char) : List Char :=
  '\x7b' :: (descrLit ++ (' ' :: ('\'' :: (tok ++ ('\'' :: ", ".toList)))))

/-- The prefix of the dictionary before the shape field. -/
def preS (tok : List Char) (f : Bool) : List Char :=
  preF tok ++ (fortranLit ++
    (' ' :: ((if f then "True".toList else "False".toList) ++ ", ".toList)))

theorem generateHeader_eq_dictBody {α : Type} (arr : GoArray α) (sh : List Int)
    (hsh : arr.shape = some sh) :
    generateHeader arr =
      '\x7b' :: (dictBodyOf (dtypeToken arr.dtype) arr.fortran (shapeInner sh) ++ ['\x7d']) := by
  simp [generateHeader, dictBodyOf, hsh]

theorem parseHeader_padded (tok inner : List Char) (f : Bool) (sh : List Int)
    (dt : String) (padN : Nat)
    (htokq : ∀ c ∈ tok, ¬ c = '\'')
    (htoknl : ∀ c ∈ tok, ¬ c = '\n')
    (hlen2 : 2 ≤ tok.length)
    (hkind : tokenKind (tok.drop 1) = some dt)
    (hnoF : NoInnerOccur fortranLit (preF tok))
    (hnoS : NoInnerOccur shapeLit (preS tok f))
    (hin : ∀ c ∈ inner, isShapeCharB c = true)
    (hinl : ∀ c ∈ inner, ¬ c = '\n')
    (hdims : parseDims (goSplit ',' inner) = some sh) :
    parseHeader (('\x7b' :: (dictBodyOf tok f inner ++ ['\x7d'])) ++
      (List.replicate padN ' ' ++ ['\n'])) = some ⟨sh, dt, f⟩ := by
  have hf : ∀ c ∈ (if f then "True".toList else "False".toList), ¬ c = '\n' := by
    cases f <;> decide
  have hnl : ∀ c ∈ dictBodyOf tok f inner, ¬ c = '\n' := by
    intro c hc hceq
    subst hceq
    revert hc
    simp [dictBodyOf, descrLit, fortranLit, shapeLit]
    exact ⟨fun h => htoknl '\n' h rfl, fun h => hf '\n' h rfl, fun h => hinl '\n' h rfl⟩
  have hfind := findDict_generated (dictBodyOf tok f inner) padN hnl
  have hdictS : '\x7b' :: (dictBodyOf tok f inner ++ ['\x7d']) =
      preS tok f ++ (shapeLit ++ (' ' :: ('(' :: (inner ++ (')' :: [',', ' ', '\x7d']))))) := by
    simp [dictBodyOf, preF, preS]
  have hshapeScan : scanFor matchShapeAt ('\x7b' :: (dictBodyOf tok f inner ++ ['\x7d'])) =
      some inner := by
    rw [hdictS]
    rw [scanFor_append_of_noInner (fun s h => matchShapeAt_eq_none h) _ _
      (List.prefix_append _ _) hnoS]
    apply scanFor_head_some
    · simp [shapeLit]
    · exact matchShapeAt_template inner [',', ' ', '\x7d'] hin
  have hdictD : '\x7b' :: (dictBodyOf tok f inner ++ ['\x7d']) =
      ['\x7b'] ++ (descrLit ++ (' ' :: ('\'' :: (tok ++ ('\'' ::
        (", ".toList ++ (fortranLit ++ (' ' :: ((if f then "True".toList else "False".toList) ++
          (", ".toList ++ (shapeLit ++ (' ' :: ('(' :: (inner ++
            (')' :: [',', ' ', '\x7d']))))))))))))))) := by
    simp [dictBodyOf, preF, preS, descrLit, fortranLit, shapeLit]
  have hnoD : NoInnerOccur descrLit ['\x7b'] := by decide
  have hdescrScan : scanFor matchDescrAt ('\x7b' :: (dictBodyOf tok f inner ++ ['\x7d'])) =
      some tok := by
    rw [hdictD]
    rw [scanFor_append_of_noInner (fun s h => matchDescrAt_eq_none h) _ _
      (List.prefix_append _ _) hnoD]
    apply scanFor_head_some
    · simp [descrLit]
    · exact matchDescrAt_template tok _ htokq
  have hdictF : '\x7b' :: (dictBodyOf tok f inner ++ ['\x7d']) =
      preF tok ++ (fortranLit ++ (' ' :: ((if f then "True".toList else "False".toList) ++
        (", ".toList ++ (shapeLit ++ (' ' :: ('(' :: (inner ++
          (')' :: [',', ' ', '\x7d']))))))))) := by
    simp [dictBodyOf, preF, preS, descrLit, fortranLit, shapeLit]
  have hfortScan : scanFor matchFortranAt ('\x7b' :: (dictBodyOf tok f inner ++ ['\x7d'])) =
      some f := by
    rw [hdictF]
    rw [scanFor_append_of_noInner (fun s h => matchFortranAt_eq_none h) _ _
      (List.prefix_append _ _) hnoF]
    apply scanFor_head_some
    · simp [fortranLit]
    · exact matchFortranAt_template f _
  simp only [parseHeader, hfind, hshapeScan, hdims, hdescrScan, hkind, hfortScan,
    hlen2, if_true]

theorem paddedHeader_assoc {α : Type} (arr : GoArray α) :
    paddedHeader arr = generateHeader arr ++
      (List.replicate (padLen (generateHeader arr).length - 1) ' ' ++ ['\n']) := by
  simp [paddedHeader]

/-- The padded header `Write` emits for a supported dtype and an in-range
non-negative shape parses back to exactly the original metadata. -/
theorem parseHeader_paddedHeader {α : Type} (arr : GoArray α) (sh : List Int)
    (hsh : arr.shape = some sh)
    (hdims : ∀ d ∈ sh, 0 ≤ d ∧ d < 2 ^ 63)
    (hdt : arr.dtype ∈ supportedDTypes) :
    parseHeader (paddedHeader arr) = some ⟨sh, arr.dtype, arr.fortran⟩ := by
  have hin : ∀ c ∈ shapeInner sh, isShapeCharB c = true :=
    mem_shapeInner_shapeChar fun d hd => (hdims d hd).1
  have hinl : ∀ c ∈ shapeInner sh, ¬ c = '\n' :=
    mem_shapeInner_ne_nl fun d hd => (hdims d hd).1
  have hdimsP : parseDims (goSplit ',' (shapeInner sh)) = some sh :=
    parseDims_shapeInner sh hdims
  obtain ⟨dta, shp, dt0, f0⟩ := arr
  dsimp only at hsh hdt ⊢
  subst hsh
  rw [paddedHeader_assoc, generateHeader_eq_dictBody _ sh rfl]
  dsimp only
  simp only [supportedDTypes, List.mem_cons, List.not_mem_nil, or_false] at hdt
  rcases hdt with rfl | rfl | rfl | rfl | rfl | rfl | rfl | rfl | rfl | rfl | rfl <;>
    cases f0 <;>
    exact parseHeader_padded _ _ _ _ _ _ (by decide) (by decide) (by decide)
      (by decide) (by decide) (by decide) hin hinl hdimsP

/-! ### The wrapping shape product agrees with the true product in range -/

theorem wrap64_bounds (x : Int) : -2 ^ 63 ≤ wrap64 x ∧ wrap64 x < 2 ^ 63 := by
  rw [wrap64]
  have h1 : 0 ≤ (x + 2 ^ 63) % 2 ^ 64 := Int.emod_nonneg _ (by norm_num)
  have h2 : (x + 2 ^ 63) % 2 ^ 64 < 2 ^ 64 := Int.emod_lt_of_pos _ (by norm_num)
  omega

theorem wrap64_dvd (x : Int) : (2 ^ 64 : Int) ∣ (wrap64 x - x) := by
  rw [wrap64]
  have h : (x + 2 ^ 63) % 2 ^ 64 = (x + 2 ^ 63) - 2 ^ 64 * ((x + 2 ^ 63) / 2 ^ 64) :=
    Int.emod_def _ _
  rw [h]
  exact ⟨-((x + 2 ^ 63) / 2 ^ 64), by ring⟩

theorem goProd_foldl_valid (sh : List Int) :
    ∀ acc : Int, -2 ^ 63 ≤ acc → acc < 2 ^ 63 →
      (-2 ^ 63 ≤ sh.foldl (fun a dim => wrap64 (a * dim)) acc ∧
       sh.foldl (fun a dim => wrap64 (a * dim)) acc < 2 ^ 63) ∧
      (2 ^ 64 : Int) ∣ (sh.foldl (fun a dim => wrap64 (a * dim)) acc - acc * sh.prod) := by
  induction sh with
  | nil =>
    intro acc h1 h2
    refine ⟨⟨h1, h2⟩, ?_⟩
    simp
  | cons dim rest ih =>
    intro acc h1 h2
    rw [List.foldl_cons]
    obtain ⟨hb1, hb2⟩ := wrap64_bounds (acc * dim)
    obtain ⟨hbr, hdr⟩ := ih (wrap64 (acc * dim)) hb1 hb2
    refine ⟨hbr, ?_⟩
    have hstep : (2 ^ 64 : Int) ∣ (wrap64 (acc * dim) - acc * dim) := wrap64_dvd _
    have hcomb : rest.foldl (fun a d => wrap64 (a * d)) (wrap64 (acc * dim)) -
        acc * (dim :: rest).prod =
        (rest.foldl (fun a d => wrap64 (a * d)) (wrap64 (acc * dim)) -
          wrap64 (acc * dim) * rest.prod) +
        (wrap64 (acc * dim) - acc * dim) * rest.prod := by
      rw [List.prod_cons]
      ring
    rw [hcomb]
    exact dvd_add hdr (Dvd.dvd.mul_right hstep _)

theorem int_list_prod_nonneg {sh : List Int} (h : ∀ d ∈ sh, 0 ≤ d) : 0 ≤ sh.prod := by
  induction sh with
  | nil => simp
  | cons d rest ih =>
    rw [List.prod_cons]
    exact mul_nonneg (h d (List.mem_cons_self d rest))
      (ih fun x hx => h x (List.mem_cons_of_mem d hx))

/-- As long as the true product of the (non-negative) dimensions stays below
2^63, the 64-bit wrapping product the code computes equals it. -/
theorem goProd_eq_prod {sh : List Int} (hdims : ∀ d ∈ sh, 0 ≤ d)
    (hlt : sh.prod < 2 ^ 63) : goProd sh = sh.prod := by
  obtain ⟨⟨hb1, hb2⟩, hd⟩ := goProd_foldl_valid sh 1 (by norm_num) (by norm_num)
  rw [goProd]
  obtain ⟨k, hk⟩ := hd
  rw [one_mul] at hk
  have hp := int_list_prod_nonneg hdims
  have hbound : -(2 ^ 64 : Int) < 2 ^ 64 * k ∧ (2 ^ 64 : Int) * k < 2 ^ 64 := by
    constructor <;> omega
  have hk0 : k = 0 := by
    rcases hbound with ⟨hl, hr⟩
    by_contra hne
    rcases lt_or_gt_of_ne hne with hneg | hpos
    · have : (2 ^ 64 : Int) * k ≤ 2 ^ 64 * (-1) := by
        apply mul_le_mul_of_nonneg_left _ (by norm_num)
        omega
      omega
    · have : (2 ^ 64 : Int) * 1 ≤ 2 ^ 64 * k := by
        apply mul_le_mul_of_nonneg_left _ (by norm_num)
        omega
      omega
  rw [hk0] at hk
  omega

/-! ### Reading back the element buffer -/

theorem readElems_flatten {α : Type} (ec : ElemCodec α) (hwf : ec.WF) (d : List α) :
    readElems ec d.length ((d.map ec.enc).flatten) = some d := by
  induction d with
  | nil => rfl
  | cons x xs ih =>
    rw [List.length_cons, List.map_cons, List.flatten_cons]
    rw [readElems]
    have hlen : (ec.enc x ++ (xs.map ec.enc).flatten).length =
        ec.width + ((xs.map ec.enc).flatten).length := by
      rw [List.length_append, hwf.1 x]
    rw [if_neg (by omega)]
    rw [List.take_left' (hwf.1 x), List.drop_left' (hwf.1 x)]
    rw [ih, hwf.2 x]

/-! ### The round trip -/

theorem mem_supported_ne_empty {dt : String} (hdt : dt ∈ supportedDTypes) :
    ¬ (dt = "") := by
  intro h
  subst h
  simp [supportedDTypes] at hdt

/-- Version-1 envelope processing on a well-formed stream: the declared
16-bit length, the header block of exactly that length, the remainder. -/
theorem readVersionHeader_v1 {hdr : NpHeader} (L : Nat) (hL : L < 2 ^ 16)
    (hdrB rest : List Nat) (hlenB : hdrB.length = L)
    (hparse : parseHeader (hdrB.map Char.ofNat) = some hdr) :
    readVersionHeader (1 :: 0 :: (le16 L ++ (hdrB ++ rest))) = some (hdr, rest) := by
  have hle : le16 L ++ (hdrB ++ rest) =
      (L % 256) :: ((L / 256 % 256) :: (hdrB ++ rest)) := rfl
  rw [hle, readVersionHeader]
  norm_num
  have hLval : L % 256 + 256 * (L / 256 % 256) = L := by omega
  rw [hLval]
  refine ⟨by omega, ?_⟩
  have ht : List.take L (List.map Char.ofNat hdrB ++ List.map Char.ofNat rest) =
      List.map Char.ofNat hdrB :=
    List.take_left' (by rw [List.length_map, hlenB])
  rw [ht, hparse, List.drop_left' hlenB]

/-- Write then Read: for a supported dtype, an in-range non-negative shape
matching the data length, and a padded header below the 16-bit limit, the
decoded array equals the original exactly (data, shape, dtype, layout). -/
theorem Write_Read_roundtrip {α : Type} (ec : ElemCodec α) (hwf : ec.WF)
    (arr : GoArray α) (d : List α) (sh : List Int)
    (hd : arr.data = some d) (hsh : arr.shape = some sh)
    (hdt : arr.dtype ∈ supportedDTypes)
    (hdims : ∀ x ∈ sh, 0 ≤ x ∧ x < 2 ^ 63)
    (hlen : (d.length : Int) = sh.prod)
    (hsmall : sh.prod < 2 ^ 63)
    (hhdr : (paddedHeader arr).length < 2 ^ 16) :
    (Write ec arr).bind (Read ec) = some arr := by
  have hgp : goProd sh = sh.prod := goProd_eq_prod (fun x hx => (hdims x hx).1) hsmall
  have hParse := parseHeader_paddedHeader arr sh hsh hdims hdt
  obtain ⟨dta, shp, dt0, f0⟩ := arr
  dsimp only at hd hsh hdt hhdr hParse ⊢
  subst hd
  subst hsh
  set ph := paddedHeader (⟨some d, some sh, dt0, f0⟩ : GoArray α) with hph
  have hmod : ph.length % 2 ^ 16 = ph.length := Nat.mod_eq_of_lt hhdr
  have heq : (d.length : Int) = goProd sh := by rw [hgp]; exact hlen
  have hW : Write ec ⟨some d, some sh, dt0, f0⟩ =
      some (magicBytes ++ 1 :: 0 :: le16 (ph.length % 2 ^ 16) ++
        ph.map Char.toNat ++ (d.map ec.enc).flatten) := by
    simp only [Write]
    rw [if_neg (mem_supported_ne_empty hdt), if_neg (not_not_intro heq)]
  rw [hW, Option.some_bind]
  have hassoc : magicBytes ++ 1 :: 0 :: le16 (ph.length % 2 ^ 16) ++
      ph.map Char.toNat ++ (d.map ec.enc).flatten =
      magicBytes ++ (1 :: 0 :: (le16 (ph.length % 2 ^ 16) ++
        (ph.map Char.toNat ++ (d.map ec.enc).flatten))) := by
    simp [List.append_assoc]
  rw [hassoc]
  rw [Read]
  have hlen6 : magicBytes.length = 6 := rfl
  have htake : (magicBytes ++ (1 :: 0 :: (le16 (ph.length % 2 ^ 16) ++
      (ph.map Char.toNat ++ (d.map ec.enc).flatten)))).take 6 = magicBytes :=
    List.take_left' hlen6
  have hdrop : (magicBytes ++ (1 :: 0 :: (le16 (ph.length % 2 ^ 16) ++
      (ph.map Char.toNat ++ (d.map ec.enc).flatten)))).drop 6 =
      1 :: 0 :: (le16 (ph.length % 2 ^ 16) ++
        (ph.map Char.toNat ++ (d.map ec.enc).flatten)) :=
    List.drop_left' hlen6
  have h6 : ¬ ((magicBytes ++ (1 :: 0 :: (le16 (ph.length % 2 ^ 16) ++
      (ph.map Char.toNat ++ (d.map ec.enc).flatten)))).length < 6) := by
    rw [List.length_append, hlen6]
    omega
  rw [if_neg h6, if_neg (not_not_intro htake), hdrop]
  have hphB : (ph.map Char.toNat).length = ph.length % 2 ^ 16 := by
    rw [List.length_map, hmod]
  have hback : ((ph.map Char.toNat).map Char.ofNat) = ph := by
    rw [List.map_map]
    have hco : Char.ofNat ∘ Char.toNat = id := funext Char.ofNat_toNat
    rw [hco, List.map_id]
  have hvh : readVersionHeader (1 :: 0 :: (le16 (ph.length % 2 ^ 16) ++
      (ph.map Char.toNat ++ (d.map ec.enc).flatten))) =
      some (⟨sh, dt0, f0⟩, (d.map ec.enc).flatten) :=
    readVersionHeader_v1 (ph.length % 2 ^ 16) (Nat.mod_lt _ (by norm_num)) _ _
      hphB (by rw [hback]; exact hParse)
  have hrd : readData ec ⟨sh, dt0, f0⟩ ((d.map ec.enc).flatten) = some d := by
    rw [readData]
    dsimp only
    rw [hgp, ← hlen]
    rw [if_neg (by omega)]
    rw [Int.toNat_natCast]
    exact readElems_flatten ec hwf d
  simp only [hvh, hrd]

/-! ### Concrete instances used by witnesses -/

/-- The byte codec of Go `bool` under `binary.Write`/`binary.Read`:
one byte, 1 for true, 0 for false; any nonzero byte reads as true. -/
def boolCodec : ElemCodec Bool :=
  ⟨1, fun b => [if b then 1 else 0], fun l => decide (¬ (l.headD 0 = 0))⟩

theorem boolCodec_wf : boolCodec.WF :=
  ⟨fun x => by cases x <;> rfl, fun x => by cases x <;> rfl⟩

/-! ### Inversion helpers for parseHeader -/

theorem tokenKind_mem {tc : List Char} {dt : String}
    (h : tokenKind tc = some dt) : dt ∈ supportedDTypes := by
  unfold tokenKind at h
  split_ifs at h <;> (cases h; decide)

theorem matchShapeAt_chars {s cap : List Char} (h : matchShapeAt s = some cap) :
    ∀ c ∈ cap, isShapeCharB c = true := by
  unfold matchShapeAt at h
  split at h
  · cases h
  · split at h
    · split at h
      · simp only [Option.some.injEq] at h
        subst h
        exact fun c hc => List.mem_takeWhile_imp hc
      · cases h
    · cases h

theorem goSplit_chars {sep : Char} {l : List Char} :
    ∀ p ∈ goSplit sep l, ∀ c ∈ p, c ∈ l := by
  induction l with
  | nil =>
    intro p hp c hc
    rw [show goSplit sep [] = [[]] from rfl] at hp
    rw [List.mem_singleton] at hp
    subst hp
    cases hc
  | cons x rest ih =>
    intro p hp c hc
    rw [goSplit] at hp
    split at hp
    · rcases List.mem_cons.mp hp with rfl | hp'
      · cases hc
      · exact List.mem_cons_of_mem x (ih p hp' c hc)
    · rcases hsp : goSplit sep rest with _ | ⟨hh, tt⟩
      · exact absurd hsp (goSplit_ne_nil _ _)
      · rw [hsp] at hp
        rcases List.mem_cons.mp hp with rfl | hp'
        · rcases List.mem_cons.mp hc with rfl | hc'
          · exact List.mem_cons_self _ _
          · exact List.mem_cons_of_mem x
              (ih hh (by rw [hsp]; exact List.mem_cons_self _ _) c hc')
        · exact List.mem_cons_of_mem x
            (ih p (by rw [hsp]; exact List.mem_cons_of_mem hh hp') c hc)

theorem trimChars_chars {l : List Char} : ∀ c ∈ trimChars l, c ∈ l := by
  intro c hc
  rw [trimChars] at hc
  rw [List.mem_reverse] at hc
  have h1 := (List.dropWhile_sublist goIsSpaceB).mem hc
  rw [List.mem_reverse] at h1
  exact (List.dropWhile_sublist goIsSpaceB).mem h1

theorem goAtoi_nonneg {t : List Char} {v : Int} (h : goAtoi t = some v)
    (hnm : ∀ c ∈ t, ¬ c = '-') : 0 ≤ v := by
  unfold goAtoi at h
  split at h
  · cases h
  next c rest =>
    split at h
    next hminus =>
      exact absurd hminus (hnm c (List.mem_cons_self c rest))
    next =>
      split at h <;>
        (split at h
         · cases h
         next n =>
           split at h
           · simp only [Option.some.injEq] at h
             subst h
             positivity
           · cases h)

theorem parseDims_nonneg {parts : List (List Char)} {shape : List Int}
    (h : parseDims parts = some shape)
    (hch : ∀ p ∈ parts, ∀ c ∈ p, isShapeCharB c = true) :
    ∀ d ∈ shape, 0 ≤ d := by
  induction parts generalizing shape with
  | nil =>
    rw [parseDims] at h
    cases h
    intro d hd
    cases hd
  | cons p ps ih =>
    rw [parseDims] at h
    split at h
    · exact ih h fun q hq => hch q (List.mem_cons_of_mem p hq)
    · split at h
      · cases h
      next d0 ha =>
        split at h
        · cases h
        next rest hr =>
          simp only [Option.some.injEq] at h
          subst h
          intro d hd
          rcases List.mem_cons.mp hd with rfl | hd'
          · apply goAtoi_nonneg ha
            intro c hc hceq
            subst hceq
            have hmem := trimChars_chars '-' hc
            have := hch p (List.mem_cons_self p ps) '-' hmem
            simp [isShapeCharB, isDigitB, regexSpaceB] at this
          · exact ih hr (fun q hq => hch q (List.mem_cons_of_mem p hq)) d hd'

/-- Inversion of a successful `parseHeader`: the intermediate results each
stage produced. -/
theorem parseHeader_inversion {s : List Char} {hdr : NpHeader}
    (h : parseHeader s = some hdr) :
    ∃ dict cap dtypeStr,
      findDict s = some dict ∧
      scanFor matchShapeAt dict = some cap ∧
      parseDims (goSplit ',' cap) = some hdr.shape ∧
      scanFor matchDescrAt dict = some dtypeStr ∧
      tokenKind (dtypeStr.drop 1) = some hdr.dtype ∧
      scanFor matchFortranAt dict = some hdr.fortran := by
  unfold parseHeader at h
  split at h
  · cases h
  next dict hfd =>
    split at h
    · cases h
    next cap hsc =>
      split at h
      · cases h
      next shape hpd =>
        split at h
        · cases h
        next dtypeStr hde =>
          split at h
          · split at h
            · cases h
            next dtype htk =>
              split at h
              · cases h
              next fortran hfo =>
                simp only [Option.some.injEq] at h
                subst h
                exact ⟨dict, cap, dtypeStr, hfd, hsc, hpd, hde, htk, hfo⟩
          · cases h

/-- Every header the decoder accepts has only non-negative dimensions. -/
theorem parseHeader_shape_nonneg {s : List Char} {hdr : NpHeader}
    (h : parseHeader s = some hdr) : ∀ d ∈ hdr.shape, 0 ≤ d := by
  obtain ⟨dict, cap, dtypeStr, _, hsc, hpd, _, _, _⟩ := parseHeader_inversion h
  obtain ⟨t, _, hmt⟩ := scanFor_eq_some hsc
  have hcap := matchShapeAt_chars hmt
  exact parseDims_nonneg hpd fun p hp c hc => hcap c (goSplit_chars p hp c hc)

/-- The dtype the decoder accepts is always one of the supported names. -/
theorem parseHeader_dtype_supported {s : List Char} {hdr : NpHeader}
    (h : parseHeader s = some hdr) : hdr.dtype ∈ supportedDTypes := by
  obtain ⟨dict, cap, dtypeStr, _, _, _, _, htk, _⟩ := parseHeader_inversion h
  exact tokenKind_mem htk

/-- Inversion of a successful envelope read: the header came from
`parseHeader`. -/
theorem readVersionHeader_parse {s : List Nat} {hdr : NpHeader} {rest : List Nat}
    (h : readVersionHeader s = some (hdr, rest)) :
    ∃ hb : List Char, parseHeader hb = some hdr := by
  unfold readVersionHeader at h
  split at h
  · split at h
    · cases h
    next headerLen rest2 _ =>
      split at h
      · cases h
      · split at h
        · cases h
        next hdr' hp =>
          simp only [Option.some.injEq, Prod.mk.injEq] at h
          exact ⟨_, by rw [hp, h.1]⟩
  · cases h

/-- Inversion of a successful `Read`. -/
theorem Read_inversion {α : Type} {ec : ElemCodec α} {s : List Nat}
    {arr : GoArray α} (h : Read ec s = some arr) :
    ∃ (hdr : NpHeader) (rest : List Nat) (d : List α),
      readVersionHeader (s.drop 6) = some (hdr, rest) ∧
      readData ec hdr rest = some d ∧
      arr = ⟨some d, some hdr.shape, hdr.dtype, hdr.fortran⟩ := by
  unfold Read at h
  split at h
  · cases h
  · split at h
    · cases h
    · split at h
      · cases h
      next hdr rest hvh =>
        split at h
        · cases h
        next d hrd =>
          simp only [Option.some.injEq] at h
          exact ⟨hdr, rest, d, hvh, hrd, h.symm⟩

/-- Inversion of a successful `Write`. -/
theorem Write_inversion {α : Type} {ec : ElemCodec α} {arr : GoArray α}
    {s : List Nat} (h : Write ec arr = some s) :
    ∃ (d : List α) (sh : List Int),
      arr.data = some d ∧ arr.shape = some sh ∧ ¬ (arr.dtype = "") ∧
      (d.length : Int) = goProd sh ∧
      s = magicBytes ++ 1 :: 0 :: le16 ((paddedHeader arr).length % 2 ^ 16) ++
        (paddedHeader arr).map Char.toNat ++ (d.map ec.enc).flatten := by
  unfold Write at h
  split at h
  · cases h
  next d hd =>
    split at h
    · cases h
    next sh hsh =>
      split at h
      · cases h
      next hdt =>
        split at h
        · cases h
        next hlen =>
          simp only [Option.some.injEq] at h
          rw [not_not] at hlen
          exact ⟨d, sh, hd, hsh, hdt, hlen, h.symm⟩

/-! ## Claim C3 -/

/-- Claim C3 (amended): with non-nil data, non-nil shape and a non-empty
dtype, `Write` fails exactly when the data length differs from the shape
product as the code computes it (64-bit wrapping arithmetic). -/
theorem c3_write_fails_iff {α : Type} (ec : ElemCodec α) (arr : GoArray α)
    (d : List α) (sh : List Int)
    (hd : arr.data = some d) (hsh : arr.shape = some sh)
    (hdt : ¬ (arr.dtype = "")) :
    Write ec arr = none ↔ ¬ ((d.length : Int) = goProd sh) := by
  by_cases h : (d.length : Int) = goProd sh
  · simp only [Write, hd, hsh, if_neg hdt, if_neg (not_not_intro h)]
    simp [h]
  · simp only [Write, hd, hsh, if_neg hdt, if_pos h]
    simp [h]

/-- Claim C3 counterexample: an array whose data length equals the shape
product but whose encode still fails (empty dtype), refuting the
unconditional "whenever the data length equals the product the encode
succeeds". -/
theorem c3_counterexample :
    ((([] : List Bool).length : Int) = ([0] : List Int).prod) ∧
    Write boolCodec ⟨some [], some [0], "", false⟩ = none := by
  constructor
  · decide
  · rfl

theorem c3_write_fails_iff_witness :
    ((⟨some [true], some [2], "bool", false⟩ : GoArray Bool).data = some [true]) ∧
    ((⟨some [true], some [2], "bool", false⟩ : GoArray Bool).shape = some [2]) ∧
    (¬ ((⟨some [true], some [2], "bool", false⟩ : GoArray Bool).dtype = "")) ∧
    (Write boolCodec ⟨some [true], some [2], "bool", false⟩ = none ↔
      ¬ ((([true] : List Bool).length : Int) = goProd [2])) :=
  ⟨rfl, rfl, by decide,
    c3_write_fails_iff boolCodec ⟨some [true], some [2], "bool", false⟩ [true] [2]
      rfl rfl (by decide)⟩

/-! ## Claim C4 -/

/-- Claim C4 (amended): on decode an unrecognized dtype token is a hard
failure (every accepted header carries a supported dtype), but on encode an
unrecognized non-empty dtype is NOT a failure: `generateHeader`'s switch
silently substitutes the float64 token `<f8`. -/
theorem c4_dtype_default :
    (∀ (s : List Char) (hdr : NpHeader), parseHeader s = some hdr →
      hdr.dtype ∈ supportedDTypes) ∧
    (∀ dt : String, ¬ dt ∈ supportedDTypes → dtypeToken dt = "<f8".toList) := by
  constructor
  · exact fun s hdr h => parseHeader_dtype_supported h
  · intro dt hdt
    unfold dtypeToken
    split_ifs <;> first
      | rfl
      | (exfalso; apply hdt; subst_vars; decide)

/-- Claim C4 counterexample: encoding an array with the unrecognized dtype
"complex128" succeeds and silently emits the default float64 token `<f8`. -/
theorem c4_counterexample :
    (¬ ("complex128" ∈ supportedDTypes)) ∧
    dtypeToken "complex128" = "<f8".toList ∧
    ¬ (Write boolCodec ⟨some [], some [0], "complex128", false⟩ = none) := by
  refine ⟨by decide, by decide, ?_⟩
  intro h
  rw [show Write boolCodec ⟨some [], some [0], "complex128", false⟩ =
    some ((Write boolCodec ⟨some [], some [0], "complex128", false⟩).getD [])
    from rfl] at h
  cases h

theorem c4_dtype_default_witness :
    (parseHeader ("\x7b'descr': '<i2', 'fortran_order': True, 'shape': (3, 4), \x7d".toList) =
      some ⟨[3, 4], "int16", true⟩) ∧
    ("int16" ∈ supportedDTypes) ∧
    (¬ ("complex128" ∈ supportedDTypes)) ∧
    dtypeToken "complex128" = "<f8".toList :=
  ⟨by decide,
   c4_dtype_default.1
     ("\x7b'descr': '<i2', 'fortran_order': True, 'shape': (3, 4), \x7d".toList)
     ⟨[3, 4], "int16", true⟩ (by decide),
   by decide,
   c4_dtype_default.2 "complex128" (by decide)⟩

/-! ## Claim C5 -/

/-- Claim C5 (amended): the container first pass reads the 6 magic bytes but
never validates them — any 6 bytes give the same first-pass result as the
real magic — while the full decode (`Read`, the second pass) rejects a
non-magic prefix. -/
theorem c5_first_pass_skips_magic :
    (∀ (m rest : List Nat), m.length = 6 →
      npzFirstPass (m ++ rest) = npzFirstPass (magicBytes ++ rest)) ∧
    (∀ (α : Type) (ec : ElemCodec α) (s : List Nat),
      ¬ (s.take 6 = magicBytes) → Read ec s = none) := by
  constructor
  · intro m rest hm
    rw [npzFirstPass, npzFirstPass]
    rw [List.drop_left' hm, List.drop_left' (show magicBytes.length = 6 from rfl)]
    rw [if_neg (by rw [List.length_append, hm]; omega),
      if_neg (by
        rw [List.length_append, show magicBytes.length = 6 from rfl]
        omega)]
  · intro α ec s hmag
    rw [Read]
    by_cases hl : s.length < 6
    · rw [if_pos hl]
    · rw [if_neg hl, if_pos hmag]

/-- Claim C5 counterexample: a member stream whose first 6 bytes are not the
magic constant sails through the first pass, which parses its header text
and succeeds — it is not rejected before header parsing as claimed. -/
theorem c5_counterexample :
    (¬ ((("XXXXXX".toList.map Char.toNat) ++ 1 :: 0 ::
        le16 ("\x7b'descr': '<i2', 'fortran_order': False, 'shape': (2, 3), \x7d".toList).length ++
        ("\x7b'descr': '<i2', 'fortran_order': False, 'shape': (2, 3), \x7d".toList).map Char.toNat).take 6 =
      magicBytes)) ∧
    npzFirstPass (("XXXXXX".toList.map Char.toNat) ++ 1 :: 0 ::
        le16 ("\x7b'descr': '<i2', 'fortran_order': False, 'shape': (2, 3), \x7d".toList).length ++
        ("\x7b'descr': '<i2', 'fortran_order': False, 'shape': (2, 3), \x7d".toList).map Char.toNat) =
      some ⟨[2, 3], "int16", false⟩ := by
  constructor
  · decide
  · decide

theorem c5_first_pass_skips_magic_witness :
    npzFirstPass (([88, 88, 88, 88, 88, 88] : List Nat) ++ []) =
      npzFirstPass (magicBytes ++ []) ∧
    Read boolCodec [7, 7, 7, 7, 7, 7, 1, 0] = none :=
  ⟨c5_first_pass_skips_magic.1 [88, 88, 88, 88, 88, 88] [] (by decide),
   c5_first_pass_skips_magic.2 Bool boolCodec [7, 7, 7, 7, 7, 7, 1, 0] (by decide)⟩

/-! ## Claim C8 -/

/-- Claim C8: container retrieval with an element-type parameter returns
not-found both when the name is absent and when the stored entry's concrete
element type differs; a successful retrieval always returns the entry
exactly as stored (never a miscast array), and there is no separate
type-mismatch error channel. -/
theorem c8_get_not_found (k : ElemKind) (npz : NPZFile) (name : String) :
    (List.lookup name npz = none → Get k npz name = none) ∧
    (∀ a : AnyArray, List.lookup name npz = some a → ¬ (a.1 = k) →
      Get k npz name = none) ∧
    (∀ arr, Get k npz name = some arr → List.lookup name npz = some ⟨k, arr⟩) := by
  refine ⟨?_, ?_, ?_⟩
  · intro h
    rw [Get, h]
  · intro a h hne
    rw [Get, h]
    simp only
    rw [dif_neg hne]
  · intro arr h
    rw [Get] at h
    split at h
    · cases h
    next a hl =>
      split at h
      next he =>
        simp only [Option.some.injEq] at h
        subst h
        rw [hl]
        obtain ⟨k', a'⟩ := a
        cases he
        rfl
      · cases h

theorem c8_get_not_found_witness :
    (List.lookup "missing"
      ([("a", ⟨ElemKind.kf64, (⟨some [1, 2], some [2], "float64", false⟩ :
        GoArray Int)⟩)] : NPZFile) = none) ∧
    Get ElemKind.kf64
      ([("a", ⟨ElemKind.kf64, (⟨some [1, 2], some [2], "float64", false⟩ :
        GoArray Int)⟩)] : NPZFile) "missing" = none ∧
    Get ElemKind.ki32
      ([("a", ⟨ElemKind.kf64, (⟨some [1, 2], some [2], "float64", false⟩ :
        GoArray Int)⟩)] : NPZFile) "a" = none :=
  ⟨rfl,
   (c8_get_not_found ElemKind.kf64 _ "missing").1 rfl,
   (c8_get_not_found ElemKind.ki32 _ "a").2.1
     ⟨ElemKind.kf64, (⟨some [1, 2], some [2], "float64", false⟩ : GoArray Int)⟩
     rfl (by decide)⟩

/-! ## Claim C10 -/

/-- Claim C10: the header decoder's shape field matches only digits, commas
and whitespace, so every accepted header has only non-negative dimensions,
and consequently every array a successful decode returns has every shape
entry non-negative. -/
theorem c10_decoded_shapes_nonneg :
    (∀ (s : List Char) (hdr : NpHeader), parseHeader s = some hdr →
      ∀ d ∈ hdr.shape, 0 ≤ d) ∧
    (∀ (α : Type) (ec : ElemCodec α) (s : List Nat) (arr : GoArray α)
      (sh : List Int), Read ec s = some arr → arr.shape = some sh →
      ∀ d ∈ sh, 0 ≤ d) := by
  constructor
  · exact fun s hdr h => parseHeader_shape_nonneg h
  · intro α ec s arr sh hread hsh
    obtain ⟨hdr, rest, d, hvh, hrd, rfl⟩ := Read_inversion hread
    obtain ⟨hb, hp⟩ := readVersionHeader_parse hvh
    simp only [Option.some.injEq] at hsh
    subst hsh
    exact parseHeader_shape_nonneg hp

/-! ## Claim C9 -/

/-- Version-2 envelope processing: the 4-byte little-endian length is
narrowed to 16 bits (`uint16(headerLen32)`) before any use. -/
theorem readVersionHeader_v2 (minor L : Nat) (hL : L < 2 ^ 32) (rest : List Nat) :
    readVersionHeader (2 :: minor :: (le32 L ++ rest)) =
      if rest.length < L % 2 ^ 16 then none
      else
        match parseHeader ((rest.take (L % 2 ^ 16)).map Char.ofNat) with
        | none => none
        | some hdr => some (hdr, rest.drop (L % 2 ^ 16)) := by
  have hle : le32 L ++ rest =
      (L % 256) :: ((L / 256 % 256) :: ((L / 2 ^ 16 % 256) ::
        ((L / 2 ^ 24 % 256) :: rest))) := rfl
  rw [hle, readVersionHeader]
  norm_num
  have hval : L % 256 + 256 * (L / 256 % 256) + 65536 * (L / 65536 % 256) +
      16777216 * (L / 16777216 % 256) = L := by omega
  rw [hval]

/-- After the correct magic, `Read` is envelope processing on the tail. -/
theorem Read_after_magic {α : Type} (ec : ElemCodec α) (t : List Nat) :
    Read ec (magicBytes ++ t) =
      match readVersionHeader t with
      | none => none
      | some (hdr, rest) =>
        match readData ec hdr rest with
        | none => none
        | some data =>
          some ⟨some data, some hdr.shape, hdr.dtype, hdr.fortran⟩ := by
  rw [Read]
  rw [if_neg (by rw [List.length_append, show magicBytes.length = 6 from rfl]; omega)]
  rw [List.take_left' (show magicBytes.length = 6 from rfl)]
  rw [if_neg (not_not_intro rfl)]
  rw [List.drop_left' (show magicBytes.length = 6 from rfl)]

/-- The first pass is envelope processing on the tail, for any 6 leading
bytes. -/
theorem npzFirstPass_after_magic (m6 t : List Nat) (hm : m6.length = 6) :
    npzFirstPass (m6 ++ t) =
      match readVersionHeader t with
      | none => none
      | some (hdr, _) => some hdr := by
  rw [npzFirstPass]
  rw [if_neg (by rw [List.length_append, hm]; omega)]
  rw [List.drop_left' hm]

/-- Claim C9: when the major version byte is 2, the 4-byte little-endian
header length is narrowed with `uint16(...)` before use, in the shared
envelope logic of both the single-array decode (`Read`) and the container
first pass (`npzFirstPass`): a stream declaring length `L` behaves exactly
as one declaring `L mod 2^16`, so lengths of 65536 and above are silently
truncated. -/
theorem c9_v2_length_narrowed (α : Type) (ec : ElemCodec α) (minor L : Nat)
    (hL : L < 2 ^ 32) (rest : List Nat) :
    readVersionHeader (2 :: minor :: (le32 L ++ rest)) =
      readVersionHeader (2 :: minor :: (le32 (L % 2 ^ 16) ++ rest)) ∧
    Read ec (magicBytes ++ (2 :: minor :: (le32 L ++ rest))) =
      Read ec (magicBytes ++ (2 :: minor :: (le32 (L % 2 ^ 16) ++ rest))) ∧
    npzFirstPass (magicBytes ++ (2 :: minor :: (le32 L ++ rest))) =
      npzFirstPass (magicBytes ++ (2 :: minor :: (le32 (L % 2 ^ 16) ++ rest))) := by
  have hmm : L % 2 ^ 16 % 2 ^ 16 = L % 2 ^ 16 :=
    Nat.mod_eq_of_lt (Nat.mod_lt _ (by norm_num))
  have h1 : readVersionHeader (2 :: minor :: (le32 L ++ rest)) =
      readVersionHeader (2 :: minor :: (le32 (L % 2 ^ 16) ++ rest)) := by
    rw [readVersionHeader_v2 minor L hL rest,
      readVersionHeader_v2 minor (L % 2 ^ 16)
        (lt_trans (Nat.mod_lt _ (by norm_num)) (by norm_num)) rest, hmm]
  refine ⟨h1, ?_, ?_⟩
  · rw [Read_after_magic, Read_after_magic, h1]
  · rw [npzFirstPass_after_magic magicBytes _ rfl,
      npzFirstPass_after_magic magicBytes _ rfl, h1]

theorem c9_v2_length_narrowed_witness :
    (70000 < 2 ^ 32) ∧
    readVersionHeader (2 :: 0 :: (le32 70000 ++ [])) =
      readVersionHeader (2 :: 0 :: (le32 (70000 % 2 ^ 16) ++ [])) ∧
    Read boolCodec (magicBytes ++ (2 :: 0 :: (le32 70000 ++ []))) =
      Read boolCodec (magicBytes ++ (2 :: 0 :: (le32 (70000 % 2 ^ 16) ++ []))) ∧
    npzFirstPass (magicBytes ++ (2 :: 0 :: (le32 70000 ++ []))) =
      npzFirstPass (magicBytes ++ (2 :: 0 :: (le32 (70000 % 2 ^ 16) ++ []))) :=
  ⟨by decide, c9_v2_length_narrowed Bool boolCodec 0 70000 (by decide) []⟩

/-! ## Claim C2 -/

theorem mem_goItoa_any {d : Int} {c : Char} (h : c ∈ goItoa d) :
    isDigitB c = true ∨ c = '-' := by
  rw [goItoa] at h
  split at h
  · rcases List.mem_cons.mp h with rfl | h'
    · exact Or.inr rfl
    · exact Or.inl (mem_natDigits_isDigit _ c h')
  · exact Or.inl (mem_natDigits_isDigit _ c h)

theorem mem_shapeInner_any {sh : List Int} {c : Char} (h : c ∈ shapeInner sh) :
    isDigitB c = true ∨ c = '-' ∨ c = ',' ∨ c = ' ' := by
  rw [shapeInner] at h
  rcases List.mem_append.mp h with h1 | h1
  · rcases mem_intercalate h1 with h2 | ⟨p, hp, hc⟩
    · rcases List.mem_cons.mp h2 with h3 | h3
      · exact Or.inr (Or.inr (Or.inl h3))
      · rcases List.mem_cons.mp h3 with h4 | h4
        · exact Or.inr (Or.inr (Or.inr h4))
        · simp at h4
    · obtain ⟨x, _, rfl⟩ := List.mem_map.mp hp
      rcases mem_goItoa_any hc with h2 | h2
      · exact Or.inl h2
      · exact Or.inr (Or.inl h2)
  · split at h1
    · rcases List.mem_singleton.mp h1 with rfl
      exact Or.inr (Or.inr (Or.inl rfl))
    · simp at h1

theorem dtypeToken_no_newline (dt : String) :
    ∀ c ∈ dtypeToken dt, ¬ c = '\n' := by
  intro c hc hceq
  subst hceq
  unfold dtypeToken at hc
  split_ifs at hc <;> exact absurd hc (by decide)

/-- The generated header text never contains a newline, whatever the
dtype, layout and shape (even negative dimensions only add minus signs). -/
theorem generateHeader_no_newline {α : Type} (arr : GoArray α) :
    ∀ c ∈ generateHeader arr, ¬ c = '\n' := by
  intro c hc hceq
  subst hceq
  have hf : ¬ ('\n' ∈ (if arr.fortran = true then "True".toList else "False".toList)) := by
    cases arr.fortran <;> decide
  have hd : ¬ ('\n' ∈ dtypeToken arr.dtype) :=
    fun h => dtypeToken_no_newline arr.dtype '\n' h rfl
  have hs : ¬ ('\n' ∈ shapeInner (arr.shape.getD [])) := by
    intro h
    rcases mem_shapeInner_any h with h4 | h4 | h4 | h4
    · exact absurd h4 (by decide)
    · exact absurd h4 (by decide)
    · exact absurd h4 (by decide)
    · exact absurd h4 (by decide)
  revert hc
  simp [generateHeader, descrLit, fortranLit, shapeLit]
  tauto

theorem padLen_bounds (n : Nat) : 1 ≤ padLen n ∧ padLen n ≤ 16 := by
  have := Nat.mod_lt (10 + n) (show 0 < 16 by norm_num)
  unfold padLen
  split <;> omega

theorem paddedHeader_length {α : Type} (arr : GoArray α) :
    (paddedHeader arr).length =
      (generateHeader arr).length + padLen (generateHeader arr).length := by
  obtain ⟨h1, _⟩ := padLen_bounds (generateHeader arr).length
  simp only [paddedHeader, List.length_append, List.length_replicate,
    List.length_singleton]
  omega

/-- Claim C2: every stream `Write` accepts carries a padded header text with
`(10 + len) % 16 = 0`, at least one byte of padding, and exactly one
trailing newline preceded only by space padding after the newline-free
header body; the emitted stream embeds that padded text verbatim. -/
theorem c2_header_padding {α : Type} (ec : ElemCodec α) (arr : GoArray α)
    (s : List Nat) (hw : Write ec arr = some s) :
    (10 + (paddedHeader arr).length) % 16 = 0 ∧
    1 ≤ padLen (generateHeader arr).length ∧
    paddedHeader arr = generateHeader arr ++
      List.replicate (padLen (generateHeader arr).length - 1) ' ' ++ ['\n'] ∧
    (¬ ('\n' ∈ generateHeader arr)) ∧
    (paddedHeader arr).count '\n' = 1 ∧
    s = magicBytes ++ 1 :: 0 :: le16 ((paddedHeader arr).length % 2 ^ 16) ++
      (paddedHeader arr).map Char.toNat ++
      ((arr.data.getD []).map ec.enc).flatten := by
  obtain ⟨d, sh, hd, hsh, hdne, hlen, hs⟩ := Write_inversion hw
  obtain ⟨hp1, hp16⟩ := padLen_bounds (generateHeader arr).length
  have hnl : ¬ ('\n' ∈ generateHeader arr) :=
    fun h => generateHeader_no_newline arr '\n' h rfl
  refine ⟨?_, hp1, ?_, hnl, ?_, ?_⟩
  · rw [paddedHeader_length]
    have := Nat.mod_lt (10 + (generateHeader arr).length) (show 0 < 16 by norm_num)
    unfold padLen
    split <;> omega
  · rfl
  · have hc1 : (generateHeader arr).count '\n' = 0 := List.count_eq_zero.mpr hnl
    have hc2 : (List.replicate (padLen (generateHeader arr).length - 1) ' ').count
        '\n' = 0 := by
      apply List.count_eq_zero.mpr
      intro h
      rcases List.eq_of_mem_replicate h with h'
      cases h'
    rw [paddedHeader, List.count_append, List.count_append, hc1, hc2]
    rfl
  · rw [hs, hd]
    rfl

theorem c2_header_padding_witness :
    (Write boolCodec ⟨some [true, false], some [2], "bool", false⟩ =
      some ((Write boolCodec
        ⟨some [true, false], some [2], "bool", false⟩).getD [])) ∧
    ((10 + (paddedHeader (⟨some [true, false], some [2], "bool", false⟩ :
      GoArray Bool)).length) % 16 = 0 ∧
    1 ≤ padLen (generateHeader (⟨some [true, false], some [2], "bool", false⟩ :
      GoArray Bool)).length ∧
    paddedHeader (⟨some [true, false], some [2], "bool", false⟩ : GoArray Bool) =
      generateHeader (⟨some [true, false], some [2], "bool", false⟩ : GoArray Bool) ++
      List.replicate (padLen (generateHeader
        (⟨some [true, false], some [2], "bool", false⟩ : GoArray Bool)).length - 1)
        ' ' ++ ['\n'] ∧
    (¬ ('\n' ∈ generateHeader (⟨some [true, false], some [2], "bool", false⟩ :
      GoArray Bool))) ∧
    (paddedHeader (⟨some [true, false], some [2], "bool", false⟩ :
      GoArray Bool)).count '\n' = 1 ∧
    (Write boolCodec ⟨some [true, false], some [2], "bool", false⟩).getD [] =
      magicBytes ++ 1 :: 0 :: le16 ((paddedHeader
        (⟨some [true, false], some [2], "bool", false⟩ : GoArray Bool)).length %
        2 ^ 16) ++
      (paddedHeader (⟨some [true, false], some [2], "bool", false⟩ :
        GoArray Bool)).map Char.toNat ++
      (((⟨some [true, false], some [2], "bool", false⟩ :
        GoArray Bool).data.getD []).map boolCodec.enc).flatten) :=
  ⟨rfl, c2_header_padding boolCodec ⟨some [true, false], some [2], "bool", false⟩ _ rfl⟩

/-! ## Claims C6 and C7 -/

theorem mapM_ok {β γ ε : Type} (l : List β) (g : β → Except ε γ) (v : β → γ)
    (h : ∀ b ∈ l, g b = .ok (v b)) : l.mapM g = .ok (l.map v) := by
  induction l with
  | nil => rfl
  | cons b bs ih =>
    rw [List.mapM_cons, h b (List.mem_cons_self b bs),
      ih fun x hx => h x (List.mem_cons_of_mem b hx)]
    rfl

theorem csvIndex_toNat (f : Bool) {R C : Int} (hR : 0 ≤ R) (hC : 0 ≤ C)
    (r c : Nat) :
    (csvIndex f R C r c).toNat =
      if f then c * R.toNat + r else r * C.toNat + c := by
  cases f
  · simp only [csvIndex, if_false, Bool.false_eq_true]
    rw [show (r : Int) * C + c = ((r * C.toNat + c : Nat) : Int) by
      push_cast [Int.toNat_of_nonneg hC]
      ring]
    rw [Int.toNat_natCast]
  · simp only [csvIndex, if_true]
    rw [show (c : Int) * R + r = ((c * R.toNat + r : Nat) : Int) by
      push_cast [Int.toNat_of_nonneg hR]
      ring]
    rw [Int.toNat_natCast]

theorem csv_index_bound {r c Rn Cn : Nat} (hr : r < Rn) (hc : c < Cn) :
    c * Rn + r < Rn * Cn := by
  have h1 : c * Rn + r < (c + 1) * Rn := by
    rw [Nat.succ_mul]
    omega
  have h2 : (c + 1) * Rn ≤ Cn * Rn := Nat.mul_le_mul_right Rn hc
  rw [Nat.mul_comm Cn Rn] at h2
  omega

/-- The 2-D branch of `ToCsv`, fully characterised: R rows of C fields, the
field at (r, c) read from the layout-dependent flat index. -/
theorem toCsv_2d {α : Type} (fmt : α → String) (d : List α) (R C : Int)
    (dt : String) (f : Bool) (hR : 0 ≤ R) (hC : 0 ≤ C)
    (hlen : d.length = R.toNat * C.toNat) :
    ToCsv fmt ⟨some d, some [R, C], dt, f⟩ =
      .ok ((List.range R.toNat).map fun r => (List.range C.toNat).map fun c =>
        (d.map fmt).getD (if f then c * R.toNat + r else r * C.toNat + c) "") := by
  rw [ToCsv]
  dsimp only [Option.getD_some]
  rw [if_neg (by simp), if_neg (by simp), if_pos (by simp)]
  dsimp only [List.headD_cons, List.drop_succ_cons, List.drop_zero]
  apply mapM_ok
  intro r hr
  rw [List.mem_range] at hr
  apply mapM_ok
  intro c hc
  rw [List.mem_range] at hc
  rw [csvIndex_toNat f hR hC r c]
  have hb : (if f then c * R.toNat + r else r * C.toNat + c) < d.length := by
    rw [hlen]
    cases f
    · simp only [if_false, Bool.false_eq_true]
      rw [Nat.mul_comm R.toNat C.toNat]
      exact csv_index_bound hc hr
    · simp only [if_true]
      exact csv_index_bound hr hc
  rw [List.getElem?_eq_getElem hb]
  rw [List.getD_eq_getElem?_getD, List.getElem?_map,
    List.getElem?_eq_getElem hb]
  rfl

/-- Claim C6: for a 2-D array of shape [R, C] the projection emits R rows of
C fields, the field at (r, c) being the text of `data[c*R + r]` under
column-major layout and `data[r*C + c]` under row-major; consequently a
row-major array and a column-major array holding the same logical matrix
project to identical tables. -/
theorem c6_projection_layout {α : Type} (fmt : α → String) (d : List α)
    (R C : Int) (dt : String) (f : Bool) (hR : 0 ≤ R) (hC : 0 ≤ C)
    (hlen : d.length = R.toNat * C.toNat) :
    ToCsv fmt ⟨some d, some [R, C], dt, f⟩ =
      .ok ((List.range R.toNat).map fun r => (List.range C.toNat).map fun c =>
        (d.map fmt).getD (if f then c * R.toNat + r else r * C.toNat + c) "") ∧
    (∀ d' : List α, d'.length = R.toNat * C.toNat →
      (∀ r c, r < R.toNat → c < C.toNat →
        d'[c * R.toNat + r]? = d[r * C.toNat + c]?) →
      ToCsv fmt ⟨some d', some [R, C], dt, true⟩ =
        ToCsv fmt ⟨some d, some [R, C], dt, false⟩) := by
  refine ⟨toCsv_2d fmt d R C dt f hR hC hlen, ?_⟩
  intro d' hlen' hcorr
  rw [toCsv_2d fmt d' R C dt true hR hC hlen',
    toCsv_2d fmt d R C dt false hR hC hlen]
  congr 1
  apply List.map_congr_left
  intro r hr
  rw [List.mem_range] at hr
  apply List.map_congr_left
  intro c hc
  rw [List.mem_range] at hc
  simp only [if_true, if_false, Bool.false_eq_true]
  rw [List.getD_eq_getElem?_getD, List.getD_eq_getElem?_getD,
    List.getElem?_map, List.getElem?_map, hcorr r c hr hc]

theorem c6_projection_layout_witness :
    (0 : Int) ≤ 2 ∧ (0 : Int) ≤ 3 ∧
    ([1, 2, 3, 4, 5, 6] : List Int).length = (2 : Int).toNat * (3 : Int).toNat ∧
    (ToCsv (fun n : Int => toString n) ⟨some [1, 2, 3, 4, 5, 6], some [2, 3],
        "int32", false⟩ =
      .ok ((List.range (2 : Int).toNat).map fun r =>
        (List.range (3 : Int).toNat).map fun c =>
        (([1, 2, 3, 4, 5, 6] : List Int).map (fun n : Int => toString n)).getD
          (if false then c * (2 : Int).toNat + r else r * (3 : Int).toNat + c)
          "")) :=
  ⟨by decide, by decide, by decide,
    (c6_projection_layout (fun n : Int => toString n) [1, 2, 3, 4, 5, 6] 2 3
      "int32" false (by decide) (by decide) (by decide)).1⟩

/-- Claim C7: the projection returns zero rows (no error) for 0 dimensions
or a 1-D shape of size 0, exactly one row of every element in stream order
for a 1-D shape of positive size, and fails with the unsupported
dimensionality error for 3 or more dimensions, emitting nothing. -/
theorem c7_dimensionality :
    (∀ (α : Type) (fmt : α → String) (arr : GoArray α),
      (arr.shape = none ∨ arr.shape = some [] ∨ arr.shape = some [0]) →
      ToCsv fmt arr = .ok []) ∧
    (∀ (α : Type) (fmt : α → String) (d : List α) (n : Int) (dt : String)
      (f : Bool), 0 < n →
      ToCsv fmt ⟨some d, some [n], dt, f⟩ = .ok [d.map fmt]) ∧
    (∀ (α : Type) (fmt : α → String) (arr : GoArray α) (sh : List Int),
      arr.shape = some sh → 3 ≤ sh.length →
      ToCsv fmt arr =
        .error "arrays with more than 2 dimensions are not supported for Csv export") := by
  refine ⟨?_, ?_, ?_⟩
  · intro α fmt arr h
    rcases h with h | h | h <;> rw [ToCsv, h] <;> simp
  · intro α fmt d n dt f hn
    rw [ToCsv]
    dsimp only [Option.getD_some]
    rw [if_neg (by simp; omega), if_pos (by simp)]
  · intro α fmt arr sh hsh h3
    rw [ToCsv, hsh]
    dsimp only [Option.getD_some]
    rw [if_neg (by rintro (h | ⟨h, _⟩) <;> omega), if_neg (by omega),
      if_neg (by omega)]

theorem c7_dimensionality_witness :
    ToCsv (fun n : Int => toString n) (⟨some [], some [], "int32", false⟩ :
      GoArray Int) = .ok [] ∧
    ((0 : Int) < 3 ∧
      ToCsv (fun n : Int => toString n) ⟨some [7, 8, 9], some [3], "int32",
        false⟩ = .ok [([7, 8, 9] : List Int).map (fun n : Int => toString n)]) ∧
    ToCsv (fun n : Int => toString n) (⟨some [1], some [1, 1, 1], "int32",
        false⟩ : GoArray Int) =
      .error "arrays with more than 2 dimensions are not supported for Csv export" :=
  ⟨c7_dimensionality.1 Int (fun n : Int => toString n)
    ⟨some [], some [], "int32", false⟩ (Or.inr (Or.inl rfl)),
   ⟨by decide, c7_dimensionality.2.1 Int (fun n : Int => toString n) [7, 8, 9] 3
     "int32" false (by decide)⟩,
   c7_dimensionality.2.2 Int (fun n : Int => toString n)
     ⟨some [1], some [1, 1, 1], "int32", false⟩ [1, 1, 1] rfl (by decide)⟩

/-! ## Claim C10, concrete instance -/

theorem c10_decoded_shapes_nonneg_witness :
    Read boolCodec (magicBytes ++ 1 :: 0 ::
        le16 (("\x7b'descr': '|b1', 'fortran_order': False, 'shape': (2, 3), \x7d".toList).length) ++
        ("\x7b'descr': '|b1', 'fortran_order': False, 'shape': (2, 3), \x7d".toList).map Char.toNat ++
        [1, 0, 1, 1, 0, 1]) =
      some ⟨some [true, false, true, true, false, true], some [2, 3], "bool", false⟩ ∧
    (∀ d ∈ ([2, 3] : List Int), 0 ≤ d) :=
  ⟨by decide,
   c10_decoded_shapes_nonneg.2 Bool boolCodec
     (magicBytes ++ 1 :: 0 ::
        le16 (("\x7b'descr': '|b1', 'fortran_order': False, 'shape': (2, 3), \x7d".toList).length) ++
        ("\x7b'descr': '|b1', 'fortran_order': False, 'shape': (2, 3), \x7d".toList).map Char.toNat ++
        [1, 0, 1, 1, 0, 1])
     ⟨some [true, false, true, true, false, true], some [2, 3], "bool", false⟩
     [2, 3] (by decide) rfl⟩

/-! ## Claim C1

The round trip holds exactly when the side conditions the code needs are
added: the padded header text must be shorter than `2^16` bytes, because
`Write` emits `uint16(len(headerStr))`.  A shape with enough dimensions
(3121 of them below) makes the header longer, the written length field
wraps, and `Read` parses a truncated header and fails. -/

theorem length_intercalate (sep : List Char) (ps : List (List Char)) :
    (List.intercalate sep ps).length =
      (ps.map List.length).sum + sep.length * (ps.length - 1) := by
  induction ps with
  | nil => simp [List.intercalate]
  | cons p rest ih =>
    cases rest with
    | nil => simp [List.intercalate]
    | cons q rest' =>
      rw [intercalate_cons₂, List.length_append, List.length_append, ih]
      simp only [List.map_cons, List.sum_cons, List.length_cons,
        Nat.add_sub_cancel]
      ring

theorem goProd_concat_zero (l : List Int) : goProd (l ++ [0]) = 0 := by
  rw [goProd, List.foldl_append]
  simp only [List.foldl_cons, List.foldl_nil, mul_zero]
  rw [wrap64]
  decide

/-- The version-1 envelope on an arbitrary tail: two little-endian length
bytes, then the bounds check, header parse and drop. -/
theorem readVersionHeader_v1_if (minor L : Nat) (hL : L < 2 ^ 16) (rest : List Nat) :
    readVersionHeader (1 :: minor :: (le16 L ++ rest)) =
      if rest.length < L then none
      else
        match parseHeader ((rest.take L).map Char.ofNat) with
        | none => none
        | some hdr => some (hdr, rest.drop L) := by
  have hle : le16 L ++ rest = (L % 256) :: ((L / 256 % 256) :: rest) := rfl
  rw [hle, readVersionHeader]
  norm_num
  have hval : L % 256 + 256 * (L / 256 % 256) = L := by omega
  rw [hval]

/-- A dimension of 19 decimal digits, in range for a 64-bit Go `int`. -/
def bigK : Int := 1000000000000000000

/-- A shape of 3121 dimensions: 3120 copies of `bigK` and a final 0, so the
dimensions are non-negative, the product is 0, and the shape tuple text is
long enough to push the padded header past `2^16` bytes. -/
def bigShape : List Int := List.replicate 3120 bigK ++ [0]

/-- The array with that shape and the matching empty data. -/
def bigArr : GoArray Bool := ⟨some [], some bigShape, "float64", false⟩

theorem goItoa_bigK : goItoa bigK = "1000000000000000000".toList := by decide

theorem length_shapeInner_bigShape : (shapeInner bigShape).length = 65521 := by
  have hmap : bigShape.map goItoa =
      List.replicate 3120 (goItoa bigK) ++ [goItoa 0] := by
    rw [bigShape, List.map_append, List.map_replicate]
    simp only [List.map_cons, List.map_nil]
  have hlen : bigShape.length = 3121 := by
    rw [bigShape, List.length_append, List.length_replicate]
    decide
  rw [shapeInner, hlen, if_neg (by norm_num), List.append_nil,
    length_intercalate, hmap]
  rw [List.map_append, List.map_replicate, List.sum_append, List.sum_const_nat,
    goItoa_bigK, List.length_append, List.length_replicate]
  decide

theorem generateHeader_bigArr :
    generateHeader bigArr =
      ("\x7b'descr': '<f8', 'fortran_order': False, 'shape': (".toList) ++
        (shapeInner bigShape ++ ("), \x7d".toList)) := by
  have h : ∀ inner : List Char,
      '\x7b' :: (dictBodyOf ("<f8".toList) false inner ++ ['\x7d']) =
        ("\x7b'descr': '<f8', 'fortran_order': False, 'shape': (".toList) ++
          (inner ++ ("), \x7d".toList)) := by
    intro inner
    simp [dictBodyOf, descrLit, fortranLit, shapeLit]
  rw [generateHeader_eq_dictBody bigArr bigShape rfl]
  rw [show dtypeToken bigArr.dtype = "<f8".toList from by decide]
  rw [show bigArr.fortran = false from rfl]
  exact h (shapeInner bigShape)

theorem length_generateHeader_bigArr : (generateHeader bigArr).length = 65576 := by
  rw [generateHeader_bigArr]
  simp only [List.length_append]
  rw [length_shapeInner_bigShape]
  decide

theorem length_paddedHeader_bigArr : (paddedHeader bigArr).length = 65590 := by
  rw [paddedHeader_length, length_generateHeader_bigArr]
  decide

/-- The first 54 characters of the padded header: the dictionary up to the
shape tuple and the first three digits of the first dimension. -/
theorem take54_paddedHeader_bigArr :
    (paddedHeader bigArr).take 54 =
      ("\x7b'descr': '<f8', 'fortran_order': False, 'shape': (100".toList) := by
  have hcons : bigShape.map goItoa =
      goItoa bigK :: ((List.replicate 3119 bigK ++ [0]).map goItoa) := by
    rw [bigShape, show (3120 : Nat) = 3119 + 1 from rfl, List.replicate_succ,
      List.cons_append, List.map_cons]
  have hcons2 : (List.replicate 3119 bigK ++ [0]).map goItoa =
      goItoa bigK :: ((List.replicate 3118 bigK ++ [0]).map goItoa) := by
    rw [show (3119 : Nat) = 3118 + 1 from rfl, List.replicate_succ,
      List.cons_append, List.map_cons]
  have hlen : bigShape.length = 3121 := by
    rw [bigShape, List.length_append, List.length_replicate]
    decide
  have htake3 : (shapeInner bigShape).take 3 = ['1', '0', '0'] := by
    rw [shapeInner, hlen, if_neg (by norm_num), List.append_nil, hcons, hcons2,
      intercalate_cons₂, List.append_assoc]
    rw [List.take_append_of_le_length (by rw [goItoa_bigK]; decide), goItoa_bigK]
    decide
  rw [paddedHeader_assoc]
  rw [List.take_append_of_le_length
    (by rw [length_generateHeader_bigArr]; norm_num)]
  rw [generateHeader_bigArr, List.take_append_eq_append_take]
  rw [List.take_of_length_le (by decide)]
  rw [show (54 - (("\x7b'descr': '<f8', 'fortran_order': False, 'shape': (".toList)).length) = 3
    from by decide]
  rw [List.take_append_of_le_length (by rw [length_shapeInner_bigShape]; norm_num)]
  rw [htake3]
  decide

/-- `Write` accepts an empty-data float64 array whose wrapping shape
product is 0, emitting the (possibly wrapped) 16-bit header length. -/
theorem Write_big_general (sh : List Int) (hgp : goProd sh = 0) :
    Write boolCodec (⟨some [], some sh, "float64", false⟩ : GoArray Bool) =
      some (magicBytes ++ 1 :: 0 ::
        le16 ((paddedHeader (⟨some [], some sh, "float64", false⟩ : GoArray Bool)).length % 2 ^ 16) ++
        (paddedHeader (⟨some [], some sh, "float64", false⟩ : GoArray Bool)).map Char.toNat ++
        ((([] : List Bool)).map boolCodec.enc).flatten) := by
  simp only [Write]
  rw [if_neg (by decide), if_neg (not_not_intro (by rw [hgp]; simp))]

/-- `Write` accepts `bigArr` (its dtype is supported and its data length 0
matches the wrapping shape product), emitting a wrapped 16-bit length. -/
theorem Write_bigArr :
    Write boolCodec bigArr =
      some (magicBytes ++ 1 :: 0 :: le16 ((paddedHeader bigArr).length % 2 ^ 16) ++
        (paddedHeader bigArr).map Char.toNat ++
        ((([] : List Bool)).map boolCodec.enc).flatten) := by
  have hgp : goProd bigShape = 0 := by rw [bigShape]; exact goProd_concat_zero _
  rw [show bigArr = (⟨some [], some bigShape, "float64", false⟩ : GoArray Bool) from rfl]
  exact Write_big_general bigShape hgp

/-- `Read` rejects the stream `Write` produced for `bigArr`: the length
field wrapped to 54, so the header is cut after the digits `100` and fails
to parse. -/
theorem Read_Write_bigArr :
    (Write boolCodec bigArr).bind (Read boolCodec) = none := by
  rw [Write_bigArr, Option.some_bind]
  have hmod : (paddedHeader bigArr).length % 2 ^ 16 = 54 := by
    rw [length_paddedHeader_bigArr]
    decide
  have hassoc : magicBytes ++ 1 :: 0 :: le16 ((paddedHeader bigArr).length % 2 ^ 16) ++
      (paddedHeader bigArr).map Char.toNat ++
      ((([] : List Bool)).map boolCodec.enc).flatten =
      magicBytes ++ (1 :: 0 :: (le16 54 ++ ((paddedHeader bigArr).map Char.toNat))) := by
    rw [hmod]
    simp [List.append_assoc]
  rw [hassoc, Read_after_magic]
  have hvh : readVersionHeader
      (1 :: 0 :: (le16 54 ++ ((paddedHeader bigArr).map Char.toNat))) = none := by
    rw [readVersionHeader_v1_if 0 54 (by norm_num)]
    rw [if_neg (by rw [List.length_map, length_paddedHeader_bigArr]; norm_num)]
    have ht : (((paddedHeader bigArr).map Char.toNat).take 54).map Char.ofNat =
        ("\x7b'descr': '<f8', 'fortran_order': False, 'shape': (100".toList) := by
      rw [← List.map_take, take54_paddedHeader_bigArr, List.map_map]
      rw [show Char.ofNat ∘ Char.toNat = id from funext Char.ofNat_toNat, List.map_id]
    rw [ht]
    rw [show parseHeader
        ("\x7b'descr': '<f8', 'fortran_order': False, 'shape': (100".toList) = none
      from by decide]
  rw [hvh]

/-- Claim C1 (amended): Write-then-Read is the identity for a supported
dtype, non-nil data and shape, in-range non-negative dimensions whose true
product is below `2^63` and equals the data length, PROVIDED the padded
header text is shorter than `2^16` bytes — `Write` stores
`uint16(len(headerStr))`, so longer headers wrap and break the round trip
(see the counterexample). -/
theorem c1_round_trip {α : Type} (ec : ElemCodec α) (hwf : ec.WF)
    (arr : GoArray α) (d : List α) (sh : List Int)
    (hd : arr.data = some d) (hsh : arr.shape = some sh)
    (hdt : arr.dtype ∈ supportedDTypes)
    (hdims : ∀ x ∈ sh, 0 ≤ x ∧ x < 2 ^ 63)
    (hlen : (d.length : Int) = sh.prod)
    (hsmall : sh.prod < 2 ^ 63)
    (hhdr : (paddedHeader arr).length < 2 ^ 16) :
    (Write ec arr).bind (Read ec) = some arr :=
  Write_Read_roundtrip ec hwf arr d sh hd hsh hdt hdims hlen hsmall hhdr

theorem c1_round_trip_witness :
    boolCodec.WF ∧
    ("bool" ∈ supportedDTypes) ∧
    (∀ x ∈ ([2] : List Int), 0 ≤ x ∧ x < 2 ^ 63) ∧
    (([true, false].length : Int) = ([2] : List Int).prod) ∧
    (([2] : List Int).prod < 2 ^ 63) ∧
    ((paddedHeader (⟨some [true, false], some [2], "bool", false⟩ : GoArray Bool)).length < 2 ^ 16) ∧
    (Write boolCodec ⟨some [true, false], some [2], "bool", false⟩).bind (Read boolCodec) =
      some ⟨some [true, false], some [2], "bool", false⟩ :=
  ⟨boolCodec_wf, by decide, by decide, by decide, by decide, by decide,
   c1_round_trip boolCodec boolCodec_wf
     (⟨some [true, false], some [2], "bool", false⟩ : GoArray Bool)
     [true, false] [2] rfl rfl (by decide) (by decide) (by decide) (by decide)
     (by decide)⟩

/-- Claim C1 as stated is refuted: `bigArr` has a supported dtype, non-nil
data and shape, non-negative 64-bit dimensions, and data of length exactly
the shape product, yet decoding the encoded stream does not return the
original array — the padded header reaches 65590 bytes, `Write` stores the
wrapped 16-bit length 54, and `Read` fails on the truncated header. -/
theorem c1_counterexample :
    boolCodec.WF ∧
    ("float64" ∈ supportedDTypes) ∧
    (∀ x ∈ bigShape, 0 ≤ x ∧ x < 2 ^ 63) ∧
    ((([] : List Bool).length : Int) = bigShape.prod) ∧
    ¬ ((paddedHeader bigArr).length < 2 ^ 16) ∧
    ¬ ((Write boolCodec bigArr).bind (Read boolCodec) = some bigArr) := by
  refine ⟨boolCodec_wf, by decide, ?_, ?_, ?_, ?_⟩
  · intro x hx
    rw [bigShape] at hx
    rcases List.mem_append.mp hx with h | h
    · rw [List.eq_of_mem_replicate h]
      decide
    · rw [List.mem_singleton.mp h]
      decide
  · rw [bigShape, List.prod_append]
    simp only [List.prod_cons, List.prod_nil, mul_one, mul_zero, List.length_nil,
      Nat.cast_zero]
  · rw [length_paddedHeader_bigArr]
    norm_num
  · rw [Read_Write_bigArr]
    simp

end NpyGo
